import Mathlib

/-!
Shallow embedding of the gree package (rendicott/gree, gree.go): a tree of
labeled nodes rendered as a box-drawing diagram.  Go's mutable pointer
structures are modelled as pure values: a node owns its children (an
inductive tree); methods that mutate the receiver become functions
returning the updated tree.  Go strings are Lean Strings; Go's
utf8.RuneCountInString is String.length (Lean chars are unicode scalar
values, i.e. Go runes).  Parent pointers are not stored: operations that
in Go walk parent pointers (updateDepths) take the node's path from the
root instead, which carries the same information.  Node UUIDs and the
unused contentFontWidth / count / index fields are omitted: the traversal
index is assigned in depth-first preorder and is only ever used to sort
GetAllDescendents, so GetAllDescendents is modelled directly as the
preorder list.
-/

namespace Gree

/-- View of an ancestor stored in a node's lineage slice.  In Go the
lineage holds pointers to the ancestor nodes; render only ever reads
their x1, amLastSibling and isRoot fields, so the model stores those.
Mutation of an ancestor's x1 after relate (shiftAllRight) is mirrored by
updating these stored records, matching the pointer aliasing. -/
structure Anc where
  x1 : Nat
  amLastSibling : Bool
  isRoot : Bool
deriving Repr, DecidableEq

/-- Scalar fields of gree.Node (gree.go, type Node). -/
structure NodeData where
  contents : String := ""
  contentsColored : String := ""
  colored : Bool := false
  padding : String := ""
  depth : Nat := 0
  amLastSibling : Bool := false
  amSibling : Bool := false
  parentIsSibling : Bool := false
  parentIsLastSibling : Bool := false
  parentIsRoot : Bool := false
  isRoot : Bool := false
  x1 : Nat := 0
  x2 : Nat := 0
  contentLength : Nat := 0
  lineage : List Anc := []
deriving Repr, DecidableEq

/-- gree.Node: scalar data plus the owned, ordered children. -/
inductive GNode where
  | mk (data : NodeData) (children : List GNode)

def GNode.data : GNode → NodeData
  | .mk d _ => d

def GNode.children : GNode → List GNode
  | .mk _ cs => cs

@[simp] theorem GNode.data_mk (d : NodeData) (cs : List GNode) : (GNode.mk d cs).data = d := rfl

@[simp] theorem GNode.children_mk (d : NodeData) (cs : List GNode) : (GNode.mk d cs).children = cs := rfl

theorem GNode.sizeOf_children_lt (d : NodeData) (cs : List GNode) (c : GNode) (h : c ∈ cs) :
    sizeOf c < sizeOf (GNode.mk d cs) := by
  have h1 : sizeOf c < sizeOf cs := List.sizeOf_lt_of_mem h
  simp only [GNode.mk.sizeOf_spec]
  omega

/-- NewNode (gree.go): fresh node with given contents and default
padding three spaces.  The uuid assignment is not modelled. -/
def NewNode (contents : String) : GNode :=
  .mk { contents := contents, padding := "   " } []

/-- String method: returns the contents. -/
def GNode.asString (n : GNode) : String := n.data.contents

/-- SetContents (gree.go). -/
def GNode.SetContents (n : GNode) (newContents : String) : GNode :=
  .mk { n.data with contents := newContents } n.children

/-- GetDepth (gree.go): returns the stored depth field. -/
def GNode.GetDepth (n : GNode) : Nat := n.data.depth

/-- NumChildren (gree.go). -/
def GNode.NumChildren (n : GNode) : Nat := n.children.length

/-- GetChild (gree.go): the y'th child or none when out of range. -/
def GNode.GetChild (n : GNode) (y : Nat) : Option GNode := n.children[y]?

/-- The error message of setPadding (gree.go). -/
def paddingErrMsg : String := "padding must be greater than len(1)"

/-- setPadding (gree.go): rejects padding with len(padding) < 1 and
otherwise stores it.  Go's len is the byte length; byte length zero,
rune length zero and equality with the empty string all coincide, and
the rune length is used here.  Returns the updated node and the error,
mirroring the Go (receiver mutation, error) pair. -/
def GNode.setPadding (n : GNode) (padding : String) : GNode × Option String :=
  if padding.length < 1 then (n, some paddingErrMsg)
  else (.mk { n.data with padding := padding } n.children, none)

/-- Sets the padding of every node of the tree (no validation).  Used to
express the effect of SetPaddingAll's descendant loop when the padding
passes validation. -/
def GNode.mapAllPadding : GNode → String → GNode
  | .mk d cs, p => .mk { d with padding := p } (go cs p)
where go : List GNode → String → List GNode
  | [], _ => []
  | c :: rest, p => c.mapAllPadding p :: go rest p

/-- GetAllDescendents (gree.go): every descendant (excluding the
receiver) as one list.  Go first collects children, then each child's
descendants, and sorts by the traversal index assigned during the most
recent relate pass; that index is assigned in depth-first preorder, so
the sorted result is the preorder listing modelled here directly. -/
def GNode.GetAllDescendents : GNode → List GNode
  | .mk _ cs => go cs
where go : List GNode → List GNode
  | [] => []
  | c :: rest => c :: c.GetAllDescendents ++ go rest

/-- SetPaddingAll (gree.go): sets the receiver's padding unvalidated,
then walks every descendant calling setPadding, returning at the first
error.  With an empty padding the very first descendant (when any
exists) fails, so no descendant is modified; with a nonempty padding
every node ends up with it. -/
def GNode.SetPaddingAll (n : GNode) (padding : String) : GNode × Option String :=
  if padding.length < 1 then
    match n with
    | .mk d cs =>
      if cs.isEmpty then (.mk { d with padding := padding } cs, none)
      else (.mk { d with padding := padding } cs, some paddingErrMsg)
  else (n.mapAllPadding padding, none)

/-- The ANSI escape introducer written by fatih/color for one
attribute. -/
def ansiEsc (attr : Nat) : String := "\x1b[" ++ toString attr ++ "m"

/-- The ANSI reset suffix written by fatih/color. -/
def ansiReset : String := "\x1b[0m"

/-- SetColor (gree.go): wraps the colored variant of the contents in the
fatih/color escape for the given attribute and marks the node colored. -/
def GNode.SetColor (n : GNode) (attr : Nat) : GNode :=
  let base := if n.data.contentsColored = "" then n.data.contents else n.data.contentsColored
  .mk { n.data with contentsColored := ansiEsc attr ++ base ++ ansiReset, colored := true } n.children

/-- SetColorRed (gree.go): fatih/color FgRed is attribute 31. -/
def GNode.SetColorRed (n : GNode) : GNode := n.SetColor 31

/-- SetColorYellow (gree.go): FgYellow is attribute 33. -/
def GNode.SetColorYellow (n : GNode) : GNode := n.SetColor 33

/-- SetColorMagenta (gree.go): FgMagenta is attribute 35. -/
def GNode.SetColorMagenta (n : GNode) : GNode := n.SetColor 35

/-- updateDepths (gree.go) restricted to the subtree below the mutated
node: the node's own depth is recomputed by counting parent hops (the
argument k here) and each child recursively gets its parent's depth plus
one, which is exactly what the recursive hop count evaluates to. -/
def GNode.setDepth (k : Nat) : GNode → GNode
  | .mk d cs => .mk { d with depth := k } (go (k + 1) cs)
where go : Nat → List GNode → List GNode
  | _, [] => []
  | k, c :: rest => c.setDepth k :: go k rest

/-- AddChild (gree.go) called on a free-standing root node: the child's
depth is preset to the receiver's depth plus one, the child is appended,
and updateDepths then rewrites the whole subtree's depths from the
receiver's hop count, which is 0 for a root. -/
def GNode.AddChild (n nc : GNode) : GNode :=
  (GNode.mk n.data (n.children ++ [.mk { nc.data with depth := n.data.depth + 1 } nc.children])).setDepth 0

/-- NewChild (gree.go): AddChild of a fresh NewNode.  Go returns the
pointer to the new child; the value model returns the updated parent. -/
def GNode.NewChild (n : GNode) (contents : String) : GNode :=
  n.AddChild (NewNode contents)

/-- Looks up the node at a path of child indices. -/
def GNode.getAt : GNode → List Nat → Option GNode
  | n, [] => some n
  | n, i :: rest => match n.children[i]? with
    | none => none
    | some c => c.getAt rest

/-- AddChild (gree.go) at a node inside a tree: Go mutates the node nc is
attached to and updateDepths recomputes depths of the receiving node's
subtree from its parent-hop count, which equals the length of its path
from the root.  Nodes outside that subtree keep their stored depths. -/
def GNode.addChildAtAux : GNode → List Nat → Nat → GNode → Option GNode
  | .mk d cs, [], k, nc =>
    some ((GNode.mk d (cs ++ [.mk { nc.data with depth := d.depth + 1 } nc.children])).setDepth k)
  | .mk d cs, i :: rest, k, nc =>
    match cs[i]? with
    | none => none
    | some c => (c.addChildAtAux rest (k + 1) nc).map (fun c2 => GNode.mk d (cs.set i c2))

/-- AddChild at the node reached by the given path from the root. -/
def GNode.addChildAt (n : GNode) (path : List Nat) (nc : GNode) : Option GNode :=
  n.addChildAtAux path 0 nc

/-- The information relate reads from the parent pointer it is handed:
the parent's isRoot flag, its (already assigned) x1, its pre-clean
lineage slice, and the parent itself as a lineage record. -/
structure PCtx where
  isRoot : Bool
  x1 : Nat
  lineagePre : List (Option Anc)
  pAnc : Anc

mutual
/-- relate (gree.go): assigns sibling flags, the horizontal anchor x1
(setx1 also recomputes x2 and contentLength from the contents' rune
count), and the lineage.  Go allocates a nil slice of length
len(parent.lineage)+1, appends the parent's non-nil ancestors and then
the parent, and strips the nils with cleanLineage after the children
have recursed; children therefore see the pre-clean slice.  The
traversal counter only assigns the preorder index used to sort
GetAllDescendents and is not modelled. -/
def relateGo (n : GNode) (amS amLS pIS pILS : Bool) (ctx : PCtx) : GNode :=
  match n with
  | .mk d cs =>
    let x1p := if ctx.isRoot then ctx.x1 else ctx.x1 + d.padding.length + 1
    let pre := List.replicate (ctx.lineagePre.length + 1) (none : Option Anc)
                ++ (ctx.lineagePre.filterMap id).map some ++ [some ctx.pAnc]
    let d2 := { d with
      amLastSibling := amLS
      amSibling := amS
      parentIsLastSibling := pILS
      parentIsSibling := pIS
      parentIsRoot := if ctx.isRoot then true else d.parentIsRoot
      x1 := x1p
      x2 := x1p + d.contents.length
      contentLength := d.contents.length
      lineage := pre.filterMap id }
    .mk d2 (relateChildren cs 0 cs.length amS amLS ⟨d.isRoot, x1p, pre, ⟨x1p, amLS, d.isRoot⟩⟩)

/-- The children loop of relate: child i is last-sibling iff i = size-1;
parentIsSibling and parentIsLastSibling are the parent's own amSibling
and amLastSibling arguments. -/
def relateChildren (cs : List GNode) (i size : Nat) (amS amLS : Bool) (ctx : PCtx) : List GNode :=
  match cs with
  | [] => []
  | c :: rest =>
    relateGo c true (i == size - 1) amS amLS ctx :: relateChildren rest (i + 1) size amS amLS ctx
end

/-- relateAsRoot (gree.go): sets isRoot and calls
n.relate(count, false, true, false, false, n) with the node itself as
parent.  Because parent aliases the node, by the time the ancestor copy
loop runs n.lineage is the freshly allocated all-nil slice, so only the
final append of the parent (the node itself) survives cleaning. -/
def relateAsRoot (n : GNode) : GNode :=
  match n with
  | .mk d cs =>
    let x1p := d.x1
    let rootAnc : Anc := ⟨x1p, true, true⟩
    let pre := List.replicate (d.lineage.length + 1) (none : Option Anc) ++ [some rootAnc]
    let d2 := { d with
      isRoot := true
      amLastSibling := true
      amSibling := false
      parentIsLastSibling := false
      parentIsSibling := false
      parentIsRoot := true
      x1 := x1p
      x2 := x1p + d.contents.length
      contentLength := d.contents.length
      lineage := pre.filterMap id }
    .mk d2 (relateChildren cs 0 cs.length false true ⟨true, x1p, pre, rootAnc⟩)

/-- getDescMaxWidth's maximum: over all descendants, x2 plus the
descendant's padding rune count. -/
def descMaxWidth (n : GNode) : Nat :=
  n.GetAllDescendents.foldl
    (fun m c => let declen := c.data.x2 + c.data.padding.length; if declen > m then declen else m) 0

/-- getDescMaxWidth (gree.go): relates first (mutating the tree), then
takes the maximum. -/
def GNode.getDescMaxWidth (n : GNode) : Nat × GNode :=
  let n2 := relateAsRoot n
  (descMaxWidth n2, n2)

/-- shiftAllRight (gree.go): setx1(x1+amount) on the node and every
descendant.  The lineage slices hold pointers to the ancestors whose x1
just moved, so the stored lineage views shift with them. -/
def shiftAnc (amount : Nat) (a : Anc) : Anc := { a with x1 := a.x1 + amount }

def GNode.shiftAllRight : GNode → Nat → GNode
  | .mk d cs, amount =>
    .mk { d with
      x1 := d.x1 + amount
      x2 := d.x1 + amount + d.contents.length
      contentLength := d.contents.length
      lineage := d.lineage.map (shiftAnc amount) } (go cs amount)
where go : List GNode → Nat → List GNode
  | [], _ => []
  | c :: rest, amount => c.shiftAllRight amount :: go rest amount

/-- The character row being composited (rrow in gree.go): a map from
column to rune, zero meaning unset, plus the row width. -/
structure Rrow where
  contents : List (Nat × Char)
  width : Nat

/-- Map lookup with Go's zero-value default for missing keys. -/
def rlookup (m : List (Nat × Char)) (i : Nat) : Char :=
  match m.find? (fun p => p.1 == i) with
  | some p => p.2
  | none => Char.ofNat 0

/-- setRowI (gree.go): writes within bounds; an override write replaces
a set cell, a plain write only fills an unset cell. -/
def Rrow.setRowI (r : Rrow) (i : Nat) (ru : Char) (override : Bool) : Rrow :=
  if r.width ≥ i then
    if override && !(rlookup r.contents i == Char.ofNat 0) then
      { r with contents := (i, ru) :: r.contents }
    else if rlookup r.contents i == Char.ofNat 0 then
      { r with contents := (i, ru) :: r.contents }
    else r
  else r

/-- appendString (gree.go): scans columns 0..width and, on reaching
afterI, writes the string's runes from there with non-override writes
(setRowI bounds-checks each one). -/
def Rrow.appendString (r : Rrow) (afterI : Nat) (s : String) : Rrow :=
  if afterI ≤ r.width then
    s.toList.enum.foldl (fun r2 p => r2.setRowI (afterI + p.1) p.2 false) r
  else r

/-- str (gree.go): collects cells 0..width into a string. -/
def Rrow.str (r : Rrow) : String :=
  String.mk ((List.range (r.width + 1)).map (rlookup r.contents))

def newRrow (width : Nat) : Rrow := ⟨[], width⟩

/-- The vertical bar glyph. -/
def vbarC : Char := '│'

/-- firstRuneChar (gree.go) feeding padRune: the first rune of the
padding, or a space when the padding is empty. -/
def padRune (d : NodeData) : Char :=
  match d.padding.toList with
  | [] => ' '
  | c :: _ => c

/-- genDecorator (gree.go): empty for the root; otherwise the sibling
glyph, padding-length-minus-one horizontal rules (decLength overrides a
nonzero length), and a space.  Go would panic on a negative repeat
count; non-root nodes always carry a nonempty padding through the API,
so the Nat clamp is never exercised there. -/
def genDecorator (d : NodeData) (decLength : Nat) : String :=
  if d.isRoot then ""
  else
    let len := if decLength ≠ 0 then decLength else d.padding.length - 1
    (if d.amLastSibling then "└" else "├") ++ String.mk (List.replicate len '─') ++ " "

/-- The label render writes: the colored variant when colored. -/
def displayContents (d : NodeData) : String :=
  if d.colored then d.contentsColored else d.contents

/-- render's effective row width: widened by the styled label's extra
(invisible) runes when the node is colored.  Through the API the colored
variant extends the plain contents, so the Go int subtraction is the Nat
one. -/
def effWidth (d : NodeData) (width : Nat) : Nat :=
  if d.colored then width + (d.contentsColored.length - d.contents.length) else width

/-- One column step of render (gree.go): border bars at columns 0 and
width (override), lineage continuation bars at a non-last non-root
ancestor's x1, the decorator plus label at the node's own x1, and the
padding fill rune elsewhere. -/
def renderStep (d : NodeData) (border : Bool) (w : Nat) (r : Rrow) (x : Nat) : Rrow :=
  let r1 := if (x == 0 || x == w) && border then r.setRowI x vbarC true else r
  let r2 := d.lineage.foldl
    (fun rr p => if x == p.x1 then
        (if !p.amLastSibling && !p.isRoot then rr.setRowI x vbarC false else rr)
      else rr) r1
  if x == d.x1 then r2.appendString x (genDecorator d 0 ++ displayContents d)
  else r2.setRowI x (padRune d) false

/-- render (gree.go): walks columns 0..effective-width building the row. -/
def renderNode (d : NodeData) (width : Nat) (border : Bool) : Rrow :=
  let w := effWidth d width
  (List.range (w + 1)).foldl (renderStep d border w) (newRrow w)

/-- genTopBorder (gree.go). -/
def genTopBorder (width : Nat) : String :=
  "┌" ++ String.mk (List.replicate (width - 1) '─') ++ "┐"

/-- genBottomBorder (gree.go). -/
def genBottomBorder (width : Nat) : String :=
  "└" ++ String.mk (List.replicate (width - 1) '─') ++ "┘"

/-- drawRuler (gree.go): tick line and label line, labels suppressed
while a multi-digit label is still being skipped over. -/
def drawRuler (maxWidth : Nat) : String :=
  let ticks := String.mk ((List.range (maxWidth + 1)).map (fun i => if i % 5 == 0 then '|' else '.'))
  let labels := ((List.range (maxWidth + 1)).foldl (fun acc i =>
      if i % 5 == 0 then (acc.1 ++ toString i, acc.2 + ((toString i).length - 1))
      else if acc.2 == 0 then (acc.1 ++ " ", 0) else (acc.1, acc.2 - 1)) ("", 0)).1
  "\n" ++ ticks ++ "\n" ++ labels ++ "\n"

/-- DrawInput (gree.go). -/
structure DrawInput where
  Border : Bool
  Debug : Bool
  Padding : String

/-- The body of DrawOptions (gree.go) up to assembling the lines: apply
a nonempty padding override to the whole tree (error discarded), relate,
relate again inside getDescMaxWidth, add the border margin and shift
right when bordered, then render the root followed by every descendant
in traversal order, wrapped in border rules when bordered.  Returns the
lines, the canvas width, and the mutated tree. -/
def drawOptionsCore (n : GNode) (di : DrawInput) : List String × Nat × GNode :=
  let n1 := if di.Padding ≠ "" then (n.SetPaddingAll di.Padding).1 else n
  let n2 := relateAsRoot n1
  let wn := n2.getDescMaxWidth
  let width := if di.Border then wn.1 + 3 else wn.1
  let n4 := if di.Border then wn.2.shiftAllRight 2 else wn.2
  let rows := (renderNode n4.data width di.Border).str ::
              n4.GetAllDescendents.map (fun c => (renderNode c.data width di.Border).str)
  let lines := (if di.Border then [genTopBorder width] else []) ++ rows
               ++ (if di.Border then [genBottomBorder width] else [])
  (lines, width, n4)

/-- The lines DrawOptions renders, in order. -/
def drawLines (n : GNode) (di : DrawInput) : List String := (drawOptionsCore n di).1

/-- The canvas width a DrawOptions call uses. -/
def canvasWidth (n : GNode) (di : DrawInput) : Nat := (drawOptionsCore n di).2.1

/-- The tree state after a DrawOptions call returns. -/
def drawState (n : GNode) (di : DrawInput) : GNode := (drawOptionsCore n di).2.2

/-- DrawOptions (gree.go): each line followed by a newline, then the
debug ruler when requested.  Returns the rendering and the mutated
tree. -/
def GNode.DrawOptions (n : GNode) (di : DrawInput) : String × GNode :=
  let r := drawOptionsCore n di
  (String.join (r.1.map (fun l => l ++ "\n")) ++ (if di.Debug then drawRuler r.2.1 else ""),
   r.2.2)

/-- The DrawInput Draw builds: no border, no debug, the receiver's own
padding as the override. -/
def drawDI (n : GNode) : DrawInput :=
  { Border := false, Debug := false, Padding := n.data.padding }

/-- Draw (gree.go): DrawOptions with the default input. -/
def GNode.Draw (n : GNode) : String × GNode :=
  n.DrawOptions (drawDI n)

/-- dive (gree.go): a leaf returns its argument; otherwise depth is
bumped and each child is probed with the current (possibly already
raised) depth, keeping the larger value. -/
def GNode.dive : GNode → Nat → Nat
  | .mk _ cs, depth =>
    if cs.isEmpty then depth
    else go cs (depth + 1)
where go : List GNode → Nat → Nat
  | [], depth => depth
  | c :: rest, depth => go rest (let d := c.dive depth; if d > depth then d else depth)

/-- MaxDepth (gree.go): each child is probed with dive from 1 and the
maximum result kept. -/
def GNode.MaxDepth : GNode → Nat
  | .mk _ cs => go cs 0
where go : List GNode → Nat → Nat
  | [], best => best
  | c :: rest, best => go rest (let depth := c.dive 1; if depth > best then depth else best)

/-- The clone diveRetrieve builds for desired = -1: a NewNode with the
same contents, setPadding of the original's padding (the error is
discarded, so an empty padding leaves the NewNode default), the same
children slice, and the relative depth.  The parent pointer copy is not
modelled. -/
def cloneAt (n : GNode) (depth : Nat) : GNode :=
  let base := ((NewNode n.data.contents).setPadding n.data.padding).1
  .mk { base.data with depth := depth } n.children

/-- diveRetrieve (gree.go): for desired -1 every visited node adds a
clone of itself; when the children sit at the desired depth they are all
added and the branch stops; otherwise the walk descends with depth+1. -/
def GNode.diveRetrieve : GNode → Nat → Int → List GNode
  | .mk d cs, depth, desired =>
    let head := if desired == -1 then [cloneAt (.mk d cs) depth] else []
    if ((depth : Int) + 1 == desired) && !cs.isEmpty then head ++ cs
    else head ++ go cs (depth + 1) desired
where go : List GNode → Nat → Int → List GNode
  | [], _, _ => []
  | c :: rest, depth, desired => c.diveRetrieve depth desired ++ go rest depth desired

/-- GetGeneration (gree.go): diveRetrieve from depth 0 into a fresh
collector. -/
def GNode.GetGeneration (n : GNode) (y : Int) : List GNode :=
  n.diveRetrieve 0 y

/-- Whether every node of the tree stores depth = its distance from the
root (the argument being the subtree root's distance). -/
def GNode.depthsOK : GNode → Nat → Bool
  | .mk d cs, k => d.depth == k && go cs (k + 1)
where go : List GNode → Nat → Bool
  | [], _ => true
  | c :: rest, k => c.depthsOK k && go rest k

/-- Whether every node of the tree satisfies a data predicate. -/
def GNode.allData (q : NodeData → Bool) : GNode → Bool
  | .mk d cs => q d && go cs
where go : List GNode → Bool
  | [] => true
  | c :: rest => c.allData q && go rest

/-- Whether every node of the tree stores the given padding. -/
def GNode.allPadding (n : GNode) (p : String) : Bool :=
  n.allData (fun d => d.padding == p)

/-- Whether no node of the tree is colored. -/
def GNode.allUncolored (n : GNode) : Bool :=
  n.allData (fun d => !d.colored)

/-- Whether no node of the tree has its isRoot flag set. -/
def GNode.noRootFlag (n : GNode) : Bool :=
  n.allData (fun d => !d.isRoot)

/-- Whether no strict descendant has a stale isRoot flag (the receiver's
own flag is allowed: relateAsRoot sets it). -/
def GNode.noStaleDesc : GNode → Bool
  | .mk _ cs => GNode.allData.go (fun d => !d.isRoot) cs

/-- The exact height of the tree: edges on a longest root-leaf path. -/
def GNode.heightH : GNode → Nat
  | .mk _ cs => if cs.isEmpty then 0 else 1 + go cs
where go : List GNode → Nat
  | [] => 0
  | c :: rest => max c.heightH (go rest)

/-- The list GetGeneration(-1) actually produces: clones of the node and
of every descendant in preorder, each carrying its distance from the
queried node as depth. -/
def cloneList : GNode → Nat → List GNode
  | .mk d cs, k => cloneAt (.mk d cs) k :: go cs (k + 1)
where go : List GNode → Nat → List GNode
  | [], _ => []
  | c :: rest, k => cloneList c k ++ go rest k

mutual
/-- Removes ANSI escape sequences (ESC up to the terminating m): the
visible characters of a styled line. -/
def stripAnsi : List Char → List Char
  | [] => []
  | c :: rest => if c = '\x1b' then stripEsc rest else c :: stripAnsi rest

/-- Skips the rest of an ANSI escape sequence. -/
def stripEsc : List Char → List Char
  | [] => []
  | c :: rest => if c = 'm' then stripAnsi rest else stripEsc rest
end

/-- The visible column width of a rendered line: its rune count with
ANSI style sequences removed. -/
def visibleLen (s : String) : Nat := (stripAnsi s.toList).length

/-- The four-node example of the round-trip scenario: root with children
child1, child2, child3, and grandchild1 under child3. -/
def exTree : GNode :=
  (((NewNode "root").NewChild "child1").NewChild "child2").AddChild
    ((NewNode "child3").NewChild "grandchild1")

/-- A two-node tree: root r with one child c. -/
def pairTree : GNode := (NewNode "r").NewChild "c"

/-- DrawOptions input with the border enabled and no padding override. -/
def borderDI : DrawInput := { Border := true, Debug := false, Padding := "" }

/-- A colored root whose styled label overflows the canvas computed from
its single short child. -/
def colorTree : GNode := ((NewNode "0123456789ABCDEF").SetColorRed).NewChild "a"

/-- pairTree after the failing SetPaddingAll with an empty padding: the
root's padding is emptied before the first descendant's validation
error aborts the loop. -/
def emptyPadTree : GNode := (pairTree.SetPaddingAll "").1

/-- The tree of TestDepthSimple (gree_test.go): grandchild attached to
child first, then child attached to root, with no render anywhere. -/
def depthTree (s1 s2 s3 : String) : GNode :=
  (NewNode s1).AddChild ((NewNode s2).AddChild (NewNode s3))

/-- pairTree with a fresh node grafted under its child c. -/
def graftRes : GNode := (pairTree.addChildAt [0] (NewNode "z")).getD pairTree

/-- The node and all of its descendants. -/
def GNode.allNodes (n : GNode) : List GNode := n :: n.GetAllDescendents

/-- A root with a plain child alpha and a red-colored child bravo of the
same label length. -/
def c5Tree : GNode :=
  ((NewNode "r").AddChild (NewNode "alpha")).AddChild ((NewNode "bravo").SetColorRed)

/-- The first child of c5Tree's post-Draw state. -/
def c5c1 : GNode := (((c5Tree.Draw).2).children[0]?).getD c5Tree

/-- The second child of c5Tree's post-Draw state. -/
def c5c2 : GNode := (((c5Tree.Draw).2).children[1]?).getD c5Tree

/-- After a relate pass, every child's anchor is its parent's anchor
when the parent is the root, and otherwise the parent's anchor plus the
child's padding rune count plus one. -/
def GNode.x1OK : GNode → Bool
  | .mk d cs => go d cs
where go : NodeData → List GNode → Bool
  | _, [] => true
  | d, c :: rest =>
    (c.data.x1 == (if d.isRoot then d.x1 else d.x1 + c.data.padding.length + 1))
      && c.x1OK && go d rest

/-- After a relate pass, every stored lineage record is the root or an
ancestor anchored strictly left of the node. -/
def GNode.lineageOK : GNode → Bool
  | .mk d cs => d.lineage.all (fun p => p.isRoot || decide (p.x1 < d.x1)) && go cs
where go : List GNode → Bool
  | [] => true
  | c :: rest => c.lineageOK && go rest

/-- Invariant carried by the parent context during relate: every
ancestor record is the root or anchored at or left of the parent, and a
root parent only carries root records. -/
def CtxInv (ctx : PCtx) : Prop :=
  (∀ p : Anc, some p ∈ ctx.lineagePre → p.isRoot = true ∨ p.x1 ≤ ctx.x1) ∧
  (ctx.pAnc.isRoot = true ∨ ctx.pAnc.x1 ≤ ctx.x1) ∧
  (ctx.isRoot = true → (∀ p : Anc, some p ∈ ctx.lineagePre → p.isRoot = true) ∧
    ctx.pAnc.isRoot = true)

/-- The node fields none of the relayout passes (relate, shift) write. -/
def coreOf (d : NodeData) : String × String × Bool × String × Nat × Bool :=
  (d.contents, d.contentsColored, d.colored, d.padding, d.depth, d.isRoot)

/-- The core fields without isRoot (relateAsRoot writes isRoot on the
root). -/
def corePC (d : NodeData) : String × String × Bool × String × Nat :=
  (d.contents, d.contentsColored, d.colored, d.padding, d.depth)

/-- Two parent contexts that relate cannot distinguish: same isRoot,
anchor and parent record, and lineage slices with the same non-nil
entries (the nil padding count only feeds the length of the next nil
block, which is filtered out again). -/
def ctxEquiv (c1 c2 : PCtx) : Prop :=
  c1.isRoot = c2.isRoot ∧ c1.x1 = c2.x1 ∧ c1.pAnc = c2.pAnc ∧
    c1.lineagePre.filterMap id = c2.lineagePre.filterMap id

/-- The padding step of drawOptionsCore as a function. -/
def padStep (n : GNode) (di : DrawInput) : GNode :=
  if di.Padding ≠ "" then (n.SetPaddingAll di.Padding).1 else n

/-- Member-wise induction over the nested tree type. -/
theorem GNode.inductionOn (P : GNode → Prop)
    (h : ∀ (d : NodeData) (cs : List GNode), (∀ c ∈ cs, P c) → P (GNode.mk d cs)) :
    ∀ n, P n := fun n =>
  match n with
  | .mk d cs => h d cs (fun c hc => GNode.inductionOn P h c)
termination_by n => sizeOf n
decreasing_by exact GNode.sizeOf_children_lt d cs c hc

theorem string_length_lt_one_iff (p : String) : (p.length < 1) ↔ p = "" := by
  constructor
  · intro h
    cases p with
    | mk l =>
      cases l with
      | nil => rfl
      | cons c t => simp [String.length] at h
  · intro h
    subst h
    decide

theorem setPadding_err_iff (n : GNode) (p : String) :
    (n.setPadding p).2 ≠ none ↔ p = "" := by
  by_cases h : p.length < 1
  · simp [GNode.setPadding, h, (string_length_lt_one_iff p).mp h]
  · have hne : p ≠ "" := by
      intro he
      exact h ((string_length_lt_one_iff p).mpr he)
    simp [GNode.setPadding, h, hne]

theorem mapAllPadding_allPadding (n : GNode) (p : String) :
    (n.mapAllPadding p).allPadding p = true := by
  induction n using GNode.inductionOn with
  | h d cs ih =>
    simp only [GNode.mapAllPadding, GNode.allPadding, GNode.allData, beq_self_eq_true,
      Bool.true_and]
    clear d
    induction cs with
    | nil => simp [GNode.mapAllPadding.go, GNode.allData.go]
    | cons c rest ihr =>
      simp only [GNode.mapAllPadding.go, GNode.allData.go, Bool.and_eq_true]
      refine ⟨?_, ihr (fun c2 hc2 => ih c2 (by simp [hc2]))⟩
      have := ih c (by simp)
      simpa [GNode.allPadding] using this

theorem getGeneration_one (n : GNode) : n.GetGeneration 1 = n.children := by
  cases n with
  | mk d cs =>
    cases cs with
    | nil => simp [GNode.GetGeneration, GNode.diveRetrieve, GNode.diveRetrieve.go]
    | cons c rest => simp [GNode.GetGeneration, GNode.diveRetrieve]

theorem diveRetrieve_neg1 (n : GNode) : ∀ depth : Nat, n.diveRetrieve depth (-1) = cloneList n depth := by
  induction n using GNode.inductionOn with
  | h d cs ih =>
    intro depth
    have hcond : (((depth : Int) + 1 == -1) && !cs.isEmpty) = false := by
      have : ((depth : Int) + 1 == -1) = false := by
        rw [beq_eq_false_iff_ne]
        omega
      simp [this]
    simp only [GNode.diveRetrieve, hcond, if_pos, if_neg, Bool.false_eq_true, cloneList]
    simp only [show ((-1 : Int) == -1) = true from rfl, if_true]
    have hgo : ∀ (l : List GNode), (∀ c ∈ l, ∀ k : Nat, c.diveRetrieve k (-1) = cloneList c k) →
        ∀ k : Nat, GNode.diveRetrieve.go l k (-1) = cloneList.go l k := by
      intro l hl
      induction l with
      | nil => intro k; rfl
      | cons c rest ihr =>
        intro k
        simp only [GNode.diveRetrieve.go, cloneList.go]
        rw [hl c (by simp) k, ihr (fun c2 h2 => hl c2 (by simp [h2]))]
    rw [hgo cs ih (depth + 1)]
    rfl

/-- What GetGeneration(-1) produces: the preorder clones, not just the
clone of the queried node. -/
theorem getGeneration_neg1 (n : GNode) : n.GetGeneration (-1) = cloneList n 0 :=
  diveRetrieve_neg1 n 0

theorem dive_ge (n : GNode) : ∀ k : Nat, k ≤ n.dive k := by
  induction n using GNode.inductionOn with
  | h d cs ih =>
    intro k
    have hgo : ∀ (l : List GNode), (∀ c ∈ l, ∀ m : Nat, m ≤ c.dive m) →
        ∀ m : Nat, m ≤ GNode.dive.go l m := by
      intro l hl
      induction l with
      | nil => intro m; simp [GNode.dive.go]
      | cons c rest ihr =>
        intro m
        simp only [GNode.dive.go]
        have h1 : m ≤ (if c.dive m > m then c.dive m else m) := by
          split
          · omega
          · omega
        exact le_trans h1 (ihr (fun c2 h2 => hl c2 (by simp [h2])) _)
    by_cases hcs : cs.isEmpty
    · simp [GNode.dive, hcs]
    · simp only [GNode.dive, hcs, if_neg, Bool.false_eq_true, if_false]
      exact le_trans (Nat.le_succ k) (hgo cs ih (k + 1))

theorem heightH_go_mem (cs : List GNode) (c : GNode) (hc : c ∈ cs) :
    c.heightH ≤ GNode.heightH.go cs := by
  induction cs with
  | nil => cases hc
  | cons c2 rest ihr =>
    simp only [GNode.heightH.go]
    rcases List.mem_cons.mp hc with h | h
    · subst h; exact Nat.le_max_left _ _
    · exact le_trans (ihr h) (Nat.le_max_right _ _)

theorem heightH_go_attained (cs : List GNode) (hne : cs ≠ []) :
    ∃ c ∈ cs, GNode.heightH.go cs = c.heightH := by
  induction cs with
  | nil => exact absurd rfl hne
  | cons c rest ihr =>
    rcases Nat.le_total (GNode.heightH.go rest) c.heightH with h | h
    · exact ⟨c, by simp, by simp [GNode.heightH.go, Nat.max_eq_left h]⟩
    · cases rest with
      | nil =>
        refine ⟨c, by simp, ?_⟩
        simp only [GNode.heightH.go, Nat.le_zero] at h
        simp [GNode.heightH.go, h]
      | cons c2 rest2 =>
        obtain ⟨c3, hc3, he3⟩ := ihr (by simp)
        refine ⟨c3, by simp [hc3], ?_⟩
        rw [show GNode.heightH.go (c :: c2 :: rest2)
            = max c.heightH (GNode.heightH.go (c2 :: rest2)) from rfl,
          Nat.max_eq_right h, he3]

theorem dive_go_ge (l : List GNode) : ∀ m : Nat, m ≤ GNode.dive.go l m := by
  induction l with
  | nil => intro m; simp [GNode.dive.go]
  | cons c rest ihr =>
    intro m
    simp only [GNode.dive.go]
    have h1 : m ≤ (if c.dive m > m then c.dive m else m) := by split <;> omega
    exact le_trans h1 (ihr _)

theorem dive_ge_height (n : GNode) : ∀ k : Nat, k + n.heightH ≤ n.dive k := by
  induction n using GNode.inductionOn with
  | h d cs ih =>
    intro k
    by_cases hcs : cs.isEmpty
    · simp [GNode.dive, GNode.heightH, hcs]
    · have hgo : ∀ (l : List GNode), (∀ c ∈ l, ∀ m : Nat, m + c.heightH ≤ c.dive m) →
          ∀ m : Nat, m + GNode.heightH.go l ≤ GNode.dive.go l m := by
        intro l hl
        induction l with
        | nil => intro m; simp [GNode.dive.go, GNode.heightH.go]
        | cons c rest ihr =>
          intro m
          simp only [GNode.dive.go, GNode.heightH.go]
          set acc := (if c.dive m > m then c.dive m else m) with hacc
          have h1 : c.dive m ≤ acc := by rw [hacc]; split <;> omega
          have h2 : m ≤ acc := by rw [hacc]; split <;> omega
          have h3 : m + c.heightH ≤ acc := le_trans (hl c (by simp) m) h1
          have h4 : acc + GNode.heightH.go rest ≤ GNode.dive.go rest acc :=
            ihr (fun c2 hc2 => hl c2 (by simp [hc2])) acc
          have h5 : acc ≤ GNode.dive.go rest acc := dive_go_ge rest acc
          omega
      simp only [GNode.dive, GNode.heightH, hcs, Bool.false_eq_true, if_false]
      have := hgo cs ih (k + 1)
      omega

theorem maxDepth_go_ge_base (cs : List GNode) : ∀ best : Nat, best ≤ GNode.MaxDepth.go cs best := by
  induction cs with
  | nil => intro best; simp [GNode.MaxDepth.go]
  | cons c rest ihr =>
    intro best
    simp only [GNode.MaxDepth.go]
    have h1 : best ≤ (if c.dive 1 > best then c.dive 1 else best) := by split <;> omega
    exact le_trans h1 (ihr _)

theorem maxDepth_go_ge_mem (cs : List GNode) (c : GNode) (hc : c ∈ cs) :
    ∀ best : Nat, c.dive 1 ≤ GNode.MaxDepth.go cs best := by
  induction cs with
  | nil => cases hc
  | cons c2 rest ihr =>
    intro best
    simp only [GNode.MaxDepth.go]
    rcases List.mem_cons.mp hc with h | h
    · subst h
      have h1 : c.dive 1 ≤ (if c.dive 1 > best then c.dive 1 else best) := by split <;> omega
      exact le_trans h1 (maxDepth_go_ge_base rest _)
    · exact ihr h _

theorem heightH_le_maxDepth (n : GNode) : n.heightH ≤ n.MaxDepth := by
  cases n with
  | mk d cs =>
    cases cs with
    | nil => simp [GNode.heightH, GNode.MaxDepth, GNode.MaxDepth.go]
    | cons c rest =>
      obtain ⟨c3, hc3, he3⟩ := heightH_go_attained (c :: rest) (by simp)
      have h1 : 1 + c3.heightH ≤ c3.dive 1 := dive_ge_height c3 1
      have h2 : c3.dive 1 ≤ GNode.MaxDepth.go (c :: rest) 0 := maxDepth_go_ge_mem _ c3 hc3 0
      simp only [GNode.heightH, GNode.MaxDepth, List.isEmpty_cons, Bool.false_eq_true, if_false]
      omega

theorem diveRetrieve_nil (n : GNode) :
    ∀ (depth : Nat) (y : Int), (depth : Int) + n.heightH < y → n.diveRetrieve depth y = [] := by
  induction n using GNode.inductionOn with
  | h d cs ih =>
    intro depth y hy
    have hy1 : ((y == -1) : Bool) = false := by
      rw [beq_eq_false_iff_ne]
      omega
    cases cs with
    | nil =>
      simp [GNode.diveRetrieve, GNode.diveRetrieve.go, hy1]
    | cons c rest =>
      have hh : (1 : Nat) + GNode.heightH.go (c :: rest) = (GNode.mk d (c :: rest)).heightH := by
        simp [GNode.heightH]
      have hy2 : (((depth : Int) + 1 == y) && !(c :: rest).isEmpty) = false := by
        have : (((depth : Int) + 1 == y) : Bool) = false := by
          rw [beq_eq_false_iff_ne]
          omega
        simp [this]
      simp only [GNode.diveRetrieve, hy1, hy2, Bool.false_eq_true, if_false, List.nil_append]
      have hgo : ∀ (l : List GNode), (∀ c2 ∈ l, ∀ (dp : Nat) (z : Int), (dp : Int) + c2.heightH < z →
            c2.diveRetrieve dp z = []) →
          (∀ c2 ∈ l, ((depth : Int) + 1) + c2.heightH < y) →
          GNode.diveRetrieve.go l (depth + 1) y = [] := by
        intro l hl hb
        induction l with
        | nil => rfl
        | cons c2 rest2 ihr =>
          simp only [GNode.diveRetrieve.go]
          rw [hl c2 (by simp) (depth + 1) y (by have := hb c2 (by simp); push_cast; push_cast at this; omega),
            ihr (fun c3 h3 => hl c3 (by simp [h3])) (fun c3 h3 => hb c3 (by simp [h3]))]
          rfl
      refine hgo (c :: rest) ih ?_
      intro c2 hc2
      have hm : c2.heightH ≤ GNode.heightH.go (c :: rest) := heightH_go_mem _ _ hc2
      have : (GNode.mk d (c :: rest)).heightH = 1 + GNode.heightH.go (c :: rest) := by
        simp [GNode.heightH]
      rw [this] at hy
      push_cast at hy ⊢
      omega

theorem depthsOK_setDepth (n : GNode) : ∀ k : Nat, (n.setDepth k).depthsOK k = true := by
  induction n using GNode.inductionOn with
  | h d cs ih =>
    intro k
    simp only [GNode.setDepth, GNode.depthsOK, beq_self_eq_true, Bool.true_and]
    have hgo : ∀ (l : List GNode), (∀ c ∈ l, ∀ m : Nat, (c.setDepth m).depthsOK m = true) →
        ∀ m : Nat, GNode.depthsOK.go (GNode.setDepth.go m l) m = true := by
      intro l hl
      induction l with
      | nil => intro m; rfl
      | cons c rest ihr =>
        intro m
        simp only [GNode.setDepth.go, GNode.depthsOK.go, Bool.and_eq_true]
        exact ⟨hl c (by simp) m, ihr (fun c2 h2 => hl c2 (by simp [h2])) m⟩
    exact hgo cs ih (k + 1)

theorem depthsOK_go_mem (cs : List GNode) (k : Nat) (h : GNode.depthsOK.go cs k = true)
    (c : GNode) (hc : c ∈ cs) : c.depthsOK k = true := by
  induction cs with
  | nil => cases hc
  | cons c2 rest ihr =>
    simp only [GNode.depthsOK.go, Bool.and_eq_true] at h
    rcases List.mem_cons.mp hc with he | he
    · subst he; exact h.1
    · exact ihr h.2 he

theorem depthsOK_go_set (cs : List GNode) (k : Nat) (h : GNode.depthsOK.go cs k = true) :
    ∀ (i : Nat) (c2 : GNode), c2.depthsOK k = true →
      GNode.depthsOK.go (cs.set i c2) k = true := by
  induction cs with
  | nil => intro i c2 _; simp [GNode.depthsOK.go]
  | cons c rest ihr =>
    intro i c2 h2
    simp only [GNode.depthsOK.go, Bool.and_eq_true] at h
    cases i with
    | zero => simp only [List.set, GNode.depthsOK.go, Bool.and_eq_true]; exact ⟨h2, h.2⟩
    | succ j =>
      simp only [List.set, GNode.depthsOK.go, Bool.and_eq_true]
      exact ⟨h.1, ihr h.2 j c2 h2⟩

theorem addChildAtAux_depthsOK :
    ∀ (path : List Nat) (n : GNode) (k : Nat) (nc n2 : GNode),
      n.depthsOK k = true → n.addChildAtAux path k nc = some n2 → n2.depthsOK k = true := by
  intro path
  induction path with
  | nil =>
    intro n k nc n2 _ heq
    cases n with
    | mk d cs =>
      simp only [GNode.addChildAtAux, Option.some.injEq] at heq
      rw [← heq]
      exact depthsOK_setDepth _ k
  | cons i rest ihr =>
    intro n k nc n2 h heq
    cases n with
    | mk d cs =>
      simp only [GNode.addChildAtAux] at heq
      cases hg : cs[i]? with
      | none => rw [hg] at heq; cases heq
      | some c =>
        rw [hg] at heq
        dsimp only at heq
        cases hr : c.addChildAtAux rest (k + 1) nc with
        | none => rw [hr] at heq; cases heq
        | some c2 =>
          rw [hr] at heq
          simp only [Option.map, Option.some.injEq] at heq
          have hcmem : c ∈ cs := List.getElem?_mem hg
          simp only [GNode.depthsOK, Bool.and_eq_true] at h
          have hc : c.depthsOK (k + 1) = true := depthsOK_go_mem cs (k + 1) h.2 c hcmem
          have hc2 : c2.depthsOK (k + 1) = true := ihr c (k + 1) nc c2 hc hr
          rw [← heq]
          simp only [GNode.depthsOK, Bool.and_eq_true]
          exact ⟨h.1, depthsOK_go_set cs (k + 1) h.2 i c2 hc2⟩

theorem allData_self (q : NodeData → Bool) (n : GNode) (h : n.allData q = true) :
    q n.data = true := by
  cases n with
  | mk d cs => simp only [GNode.allData, Bool.and_eq_true] at h; exact h.1

theorem allData_go_mem (q : NodeData → Bool) (cs : List GNode) (h : GNode.allData.go q cs = true)
    (c : GNode) (hc : c ∈ cs) : c.allData q = true := by
  induction cs with
  | nil => cases hc
  | cons c2 rest ihr =>
    simp only [GNode.allData.go, Bool.and_eq_true] at h
    rcases List.mem_cons.mp hc with he | he
    · subst he; exact h.1
    · exact ihr h.2 he

theorem allData_mem_desc (q : NodeData → Bool) (n : GNode) :
    n.allData q = true → ∀ c ∈ n.GetAllDescendents, c.allData q = true := by
  induction n using GNode.inductionOn with
  | h d cs ih =>
    intro h c hc
    simp only [GNode.allData, Bool.and_eq_true] at h
    simp only [GNode.GetAllDescendents] at hc
    have key : ∀ (l : List GNode),
        (∀ c2 ∈ l, c2.allData q = true → ∀ c3 ∈ c2.GetAllDescendents, c3.allData q = true) →
        GNode.allData.go q l = true →
        ∀ c2 ∈ GNode.GetAllDescendents.go l, c2.allData q = true := by
      intro l hl hgood c2 hc2
      induction l with
      | nil => cases hc2
      | cons c3 rest ihr =>
        simp only [GNode.allData.go, Bool.and_eq_true] at hgood
        simp only [GNode.GetAllDescendents.go, List.cons_append, List.mem_cons,
          List.mem_append] at hc2
        rcases hc2 with he | he | he
        · subst he; exact hgood.1
        · exact hl c3 (by simp) hgood.1 c2 he
        · exact ihr (fun c4 h4 => hl c4 (by simp [h4])) hgood.2 he
    exact key cs ih h.2 c hc

theorem relateGo_allData (q : NodeData → Bool)
    (hq : ∀ d1 d2 : NodeData, coreOf d1 = coreOf d2 → q d1 = q d2) (n : GNode) :
    ∀ (a b c e : Bool) (ctx : PCtx), n.allData q = true → (relateGo n a b c e ctx).allData q = true := by
  induction n using GNode.inductionOn with
  | h d cs ih =>
    intro a b c e ctx h
    simp only [GNode.allData, Bool.and_eq_true] at h
    simp only [relateGo, GNode.allData, Bool.and_eq_true]
    constructor
    · rw [hq _ d (by simp [coreOf])]
      exact h.1
    · have hgo : ∀ (l : List GNode),
          (∀ c2 ∈ l, ∀ (a2 b2 c3 e2 : Bool) (ctx2 : PCtx), c2.allData q = true →
            (relateGo c2 a2 b2 c3 e2 ctx2).allData q = true) →
          GNode.allData.go q l = true →
          ∀ (i size : Nat) (a2 b2 : Bool) (ctx2 : PCtx),
            GNode.allData.go q (relateChildren l i size a2 b2 ctx2) = true := by
        intro l hl hgood
        induction l with
        | nil => intro i size a2 b2 ctx2; rfl
        | cons c2 rest ihr =>
          intro i size a2 b2 ctx2
          simp only [GNode.allData.go, Bool.and_eq_true] at hgood
          simp only [relateChildren, GNode.allData.go, Bool.and_eq_true]
          exact ⟨hl c2 (by simp) _ _ _ _ _ hgood.1,
            ihr (fun c3 h3 => hl c3 (by simp [h3])) hgood.2 _ _ _ _ _⟩
      exact hgo cs ih h.2 0 cs.length a b _

theorem relateChildren_allData (q : NodeData → Bool)
    (hq : ∀ d1 d2 : NodeData, coreOf d1 = coreOf d2 → q d1 = q d2) :
    ∀ (l : List GNode) (i size : Nat) (a b : Bool) (ctx : PCtx),
      GNode.allData.go q l = true →
      GNode.allData.go q (relateChildren l i size a b ctx) = true := by
  intro l
  induction l with
  | nil => intro i size a b ctx _; rfl
  | cons c rest ihr =>
    intro i size a b ctx h
    simp only [GNode.allData.go, Bool.and_eq_true] at h
    simp only [relateChildren, GNode.allData.go, Bool.and_eq_true]
    exact ⟨relateGo_allData q hq c _ _ _ _ _ h.1, ihr _ _ _ _ _ h.2⟩

theorem relateAsRoot_allData (q : NodeData → Bool)
    (hq2 : ∀ d1 d2 : NodeData, corePC d1 = corePC d2 → q d1 = q d2) (n : GNode)
    (h : n.allData q = true) : (relateAsRoot n).allData q = true := by
  have hq : ∀ d1 d2 : NodeData, coreOf d1 = coreOf d2 → q d1 = q d2 := by
    intro d1 d2 he
    refine hq2 d1 d2 ?_
    simp only [coreOf, Prod.mk.injEq] at he
    simp [corePC, he.1, he.2.1, he.2.2.1, he.2.2.2.1, he.2.2.2.2.1]
  cases n with
  | mk d cs =>
    simp only [GNode.allData, Bool.and_eq_true] at h
    simp only [relateAsRoot, GNode.allData, Bool.and_eq_true]
    constructor
    · rw [hq2 _ d (by simp [corePC])]
      exact h.1
    · exact relateChildren_allData q hq cs 0 cs.length false true _ h.2

theorem shiftAllRight_allData (q : NodeData → Bool)
    (hq : ∀ d1 d2 : NodeData, coreOf d1 = coreOf d2 → q d1 = q d2) (n : GNode) :
    ∀ amount : Nat, n.allData q = true → (n.shiftAllRight amount).allData q = true := by
  induction n using GNode.inductionOn with
  | h d cs ih =>
    intro amount h
    simp only [GNode.allData, Bool.and_eq_true] at h
    simp only [GNode.shiftAllRight, GNode.allData, Bool.and_eq_true]
    constructor
    · rw [hq _ d (by simp [coreOf])]
      exact h.1
    · have hgo : ∀ (l : List GNode),
          (∀ c ∈ l, ∀ m : Nat, c.allData q = true → (c.shiftAllRight m).allData q = true) →
          GNode.allData.go q l = true →
          GNode.allData.go q (GNode.shiftAllRight.go l amount) = true := by
        intro l hl hgood
        induction l with
        | nil => rfl
        | cons c rest ihr =>
          simp only [GNode.allData.go, Bool.and_eq_true] at hgood
          simp only [GNode.shiftAllRight.go, GNode.allData.go, Bool.and_eq_true]
          exact ⟨hl c (by simp) amount hgood.1,
            ihr (fun c2 h2 => hl c2 (by simp [h2])) hgood.2⟩
      exact hgo cs ih h.2

theorem mapAllPadding_allData (q : NodeData → Bool)
    (hq3 : ∀ (d : NodeData) (p : String), q { d with padding := p } = q d) (n : GNode) :
    ∀ p : String, n.allData q = true → (n.mapAllPadding p).allData q = true := by
  induction n using GNode.inductionOn with
  | h d cs ih =>
    intro p h
    simp only [GNode.allData, Bool.and_eq_true] at h
    simp only [GNode.mapAllPadding, GNode.allData, Bool.and_eq_true]
    refine ⟨by rw [hq3]; exact h.1, ?_⟩
    have hgo : ∀ (l : List GNode),
        (∀ c ∈ l, ∀ p2 : String, c.allData q = true → (c.mapAllPadding p2).allData q = true) →
        GNode.allData.go q l = true →
        GNode.allData.go q (GNode.mapAllPadding.go l p) = true := by
      intro l hl hgood
      induction l with
      | nil => rfl
      | cons c rest ihr =>
        simp only [GNode.allData.go, Bool.and_eq_true] at hgood
        simp only [GNode.mapAllPadding.go, GNode.allData.go, Bool.and_eq_true]
        exact ⟨hl c (by simp) p hgood.1,
          ihr (fun c2 h2 => hl c2 (by simp [h2])) hgood.2⟩
    exact hgo cs ih h.2

theorem filterMap_id_replicate_none (k : Nat) :
    (List.replicate k (none : Option Anc)).filterMap id = [] := by
  induction k with
  | zero => rfl
  | succ m ih => simp [List.replicate_succ, ih]

theorem pre_filterMap (k : Nat) (xs : List Anc) (a : Anc) :
    (List.replicate k (none : Option Anc) ++ xs.map some ++ [some a]).filterMap id
      = xs ++ [a] := by
  simp [List.filterMap_append, filterMap_id_replicate_none, List.filterMap_map]

theorem pre_filterMap_root (k : Nat) (a : Anc) :
    (List.replicate k (none : Option Anc) ++ [some a]).filterMap id = [a] := by
  simp [List.filterMap_append, filterMap_id_replicate_none]

theorem relateChildren_length (l : List GNode) :
    ∀ (i size : Nat) (a b : Bool) (ctx : PCtx), (relateChildren l i size a b ctx).length = l.length := by
  induction l with
  | nil => intro i size a b ctx; rfl
  | cons c rest ihr =>
    intro i size a b ctx
    simp only [relateChildren, List.length_cons, ihr]

theorem relateGo_ctx_congr (n : GNode) :
    ∀ (a b c e : Bool) (ctx1 ctx2 : PCtx), ctxEquiv ctx1 ctx2 →
      relateGo n a b c e ctx1 = relateGo n a b c e ctx2 := by
  induction n using GNode.inductionOn with
  | h d cs ih =>
    intro a b c e ctx1 ctx2 heq
    obtain ⟨h1, h2, h3, h4⟩ := heq
    have hchild : ∀ (l : List GNode),
        (∀ c2 ∈ l, ∀ (a2 b2 c3 e2 : Bool) (cA cB : PCtx), ctxEquiv cA cB →
          relateGo c2 a2 b2 c3 e2 cA = relateGo c2 a2 b2 c3 e2 cB) →
        ∀ (i size : Nat) (a2 b2 : Bool) (cA cB : PCtx), ctxEquiv cA cB →
          relateChildren l i size a2 b2 cA = relateChildren l i size a2 b2 cB := by
      intro l hl
      induction l with
      | nil => intro i size a2 b2 cA cB _; rfl
      | cons c2 rest ihr =>
        intro i size a2 b2 cA cB hAB
        simp only [relateChildren]
        rw [hl c2 (by simp) _ _ _ _ _ _ hAB,
          ihr (fun c3 h3 => hl c3 (by simp [h3])) _ _ _ _ _ _ hAB]
    simp only [relateGo]
    congr 1
    · rw [pre_filterMap, pre_filterMap, h1, h2, h3, h4]
    · refine hchild cs ih 0 cs.length a b _ _ ⟨rfl, by rw [h1, h2], by rw [h1, h2], ?_⟩
      rw [pre_filterMap, pre_filterMap, h3, h4]

theorem relateChildren_ctx_congr (l : List GNode) :
    ∀ (i size : Nat) (a b : Bool) (c1 c2 : PCtx), ctxEquiv c1 c2 →
      relateChildren l i size a b c1 = relateChildren l i size a b c2 := by
  induction l with
  | nil => intro i size a b c1 c2 _; rfl
  | cons c rest ihr =>
    intro i size a b c1 c2 h
    simp only [relateChildren]
    rw [relateGo_ctx_congr c _ _ _ _ _ _ h, ihr _ _ _ _ _ _ h]

theorem relateGo_idem (n : GNode) :
    ∀ (a b c e : Bool) (ctx : PCtx),
      relateGo (relateGo n a b c e ctx) a b c e ctx = relateGo n a b c e ctx := by
  induction n using GNode.inductionOn with
  | h d cs ih =>
    intro a b c e ctx
    have hchild : ∀ (l : List GNode),
        (∀ c2 ∈ l, ∀ (a2 b2 c3 e2 : Bool) (ctx2 : PCtx),
          relateGo (relateGo c2 a2 b2 c3 e2 ctx2) a2 b2 c3 e2 ctx2
            = relateGo c2 a2 b2 c3 e2 ctx2) →
        ∀ (i size : Nat) (a2 b2 : Bool) (ctx2 : PCtx),
          relateChildren (relateChildren l i size a2 b2 ctx2) i size a2 b2 ctx2
            = relateChildren l i size a2 b2 ctx2 := by
      intro l hl
      induction l with
      | nil => intro i size a2 b2 ctx2; rfl
      | cons c2 rest ihr =>
        intro i size a2 b2 ctx2
        simp only [relateChildren]
        rw [hl c2 (by simp) _ _ _ _ _, ihr (fun c3 h3 => hl c3 (by simp [h3])) _ _ _ _ _]
    simp only [relateGo]
    congr 1
    · by_cases hc : ctx.isRoot = true <;> simp [hc]
    · rw [relateChildren_length]
      exact hchild cs ih 0 cs.length a b _

theorem relateChildren_idem (l : List GNode) :
    ∀ (i size : Nat) (a b : Bool) (ctx : PCtx),
      relateChildren (relateChildren l i size a b ctx) i size a b ctx
        = relateChildren l i size a b ctx := by
  induction l with
  | nil => intro i size a b ctx; rfl
  | cons c rest ihr =>
    intro i size a b ctx
    simp only [relateChildren]
    rw [relateGo_idem c _ _ _ _ _, ihr _ _ _ _ _]

theorem relateAsRoot_idem (n : GNode) : relateAsRoot (relateAsRoot n) = relateAsRoot n := by
  cases n with
  | mk d cs =>
    simp only [relateAsRoot, pre_filterMap_root]
    congr 1
    rw [relateChildren_length]
    refine Eq.trans ?_ (relateChildren_idem cs 0 cs.length false true _)
    refine relateChildren_ctx_congr _ 0 cs.length false true _ _ ⟨rfl, rfl, rfl, ?_⟩
    simp [pre_filterMap_root]

theorem mapAllPadding_self (n : GNode) :
    ∀ p : String, n.allPadding p = true → n.mapAllPadding p = n := by
  induction n using GNode.inductionOn with
  | h d cs ih =>
    intro p h
    simp only [GNode.allPadding, GNode.allData, Bool.and_eq_true, beq_iff_eq] at h
    have hgo : ∀ (l : List GNode),
        (∀ c ∈ l, ∀ p2 : String, c.allPadding p2 = true → c.mapAllPadding p2 = c) →
        GNode.allData.go (fun d2 => d2.padding == p) l = true →
        GNode.mapAllPadding.go l p = l := by
      intro l hl hgood
      induction l with
      | nil => rfl
      | cons c rest ihr =>
        simp only [GNode.allData.go, Bool.and_eq_true] at hgood
        simp only [GNode.mapAllPadding.go]
        rw [hl c (by simp) p hgood.1, ihr (fun c2 h2 => hl c2 (by simp [h2])) hgood.2]
    simp only [GNode.mapAllPadding]
    rw [hgo cs ih h.2, ← h.1]

theorem setPaddingAll_fst (n : GNode) (p : String) (h : p ≠ "") :
    (n.SetPaddingAll p).1 = n.mapAllPadding p := by
  have hlen : ¬p.length < 1 := fun hl => h ((string_length_lt_one_iff p).mp hl)
  simp [GNode.SetPaddingAll, hlen]

theorem drawOptionsCore_eq (n : GNode) (di : DrawInput) :
    drawOptionsCore n di =
      (let n3 := relateAsRoot (relateAsRoot (padStep n di))
       let width := if di.Border then descMaxWidth n3 + 3 else descMaxWidth n3
       let n4 := if di.Border then n3.shiftAllRight 2 else n3
       ((if di.Border then [genTopBorder width] else []) ++
        ((renderNode n4.data width di.Border).str ::
          n4.GetAllDescendents.map (fun c => (renderNode c.data width di.Border).str)) ++
        (if di.Border then [genBottomBorder width] else []), width, n4)) := rfl

theorem padStep_allPadding (n : GNode) (di : DrawInput) (h : di.Padding ≠ "") :
    (padStep n di).allPadding di.Padding = true := by
  rw [padStep, if_pos h, setPaddingAll_fst n di.Padding h]
  exact mapAllPadding_allPadding n di.Padding

theorem qPad_corePC (p : String) : ∀ d1 d2 : NodeData, corePC d1 = corePC d2 →
    (d1.padding == p) = (d2.padding == p) := by
  intro d1 d2 he
  simp only [corePC, Prod.mk.injEq] at he
  rw [he.2.2.2.1]

theorem qPad_coreOf (p : String) : ∀ d1 d2 : NodeData, coreOf d1 = coreOf d2 →
    (d1.padding == p) = (d2.padding == p) := by
  intro d1 d2 he
  simp only [coreOf, Prod.mk.injEq] at he
  rw [he.2.2.2.1]

theorem drawState_allPadding (n : GNode) (di : DrawInput) (h : di.Padding ≠ "") :
    (drawState n di).allPadding di.Padding = true := by
  have h1 : (relateAsRoot (relateAsRoot (padStep n di))).allPadding di.Padding = true := by
    refine relateAsRoot_allData _ (qPad_corePC di.Padding) _ ?_
    refine relateAsRoot_allData _ (qPad_corePC di.Padding) _ ?_
    exact padStep_allPadding n di h
  rw [drawState, drawOptionsCore_eq]
  by_cases hb : di.Border = true
  · simp only [hb, if_true]
    exact shiftAllRight_allData _ (qPad_coreOf di.Padding) _ 2 h1
  · simp only [hb, Bool.false_eq_true, if_false]
    simpa [hb] using h1

theorem padStep_self (n : GNode) (di : DrawInput) (h : n.allPadding di.Padding = true) :
    padStep n di = n := by
  by_cases hp : di.Padding = ""
  · simp [padStep, hp]
  · rw [padStep, if_pos hp, setPaddingAll_fst n di.Padding hp]
    exact mapAllPadding_self n di.Padding h

theorem canvasWidth_stable (n : GNode) (di : DrawInput) (h : di.Border = false) :
    canvasWidth (drawState n di) di = canvasWidth n di := by
  have hfalse : di.Border ≠ true := by rw [h]; exact Bool.false_ne_true
  have hstate : drawState n di = relateAsRoot (relateAsRoot (padStep n di)) := by
    rw [drawState, drawOptionsCore_eq]
    simp [h]
  set n3 := relateAsRoot (relateAsRoot (padStep n di)) with hn3
  have hidem : relateAsRoot n3 = n3 := by
    rw [hn3]
    exact relateAsRoot_idem _
  have hpadfix : padStep n3 di = n3 := by
    by_cases hp : di.Padding = ""
    · simp [padStep, hp]
    · refine padStep_self n3 di ?_
      rw [hn3]
      refine relateAsRoot_allData _ (qPad_corePC di.Padding) _ ?_
      refine relateAsRoot_allData _ (qPad_corePC di.Padding) _ ?_
      exact padStep_allPadding n di hp
  rw [canvasWidth, canvasWidth, drawOptionsCore_eq, drawOptionsCore_eq, hstate]
  simp only [h, Bool.false_eq_true, if_false]
  rw [hpadfix, hidem, hidem]

theorem setRowI_width (r : Rrow) (i : Nat) (ru : Char) (ov : Bool) :
    (r.setRowI i ru ov).width = r.width := by
  rw [Rrow.setRowI]
  split
  · split
    · rfl
    · split
      · rfl
      · rfl
  · rfl

theorem foldl_width_inv {α : Type} (f : Rrow → α → Rrow)
    (hf : ∀ (r : Rrow) (x : α), (f r x).width = r.width) :
    ∀ (l : List α) (r : Rrow), (l.foldl f r).width = r.width := by
  intro l
  induction l with
  | nil => intro r; rfl
  | cons x rest ihr => intro r; rw [List.foldl_cons, ihr, hf]

theorem appendString_width (r : Rrow) (a : Nat) (s : String) :
    (r.appendString a s).width = r.width := by
  rw [Rrow.appendString]
  split
  · exact foldl_width_inv _ (fun r2 p => setRowI_width r2 _ _ _) _ r
  · rfl

theorem renderStep_width (d : NodeData) (b : Bool) (w : Nat) (r : Rrow) (x : Nat) :
    (renderStep d b w r x).width = r.width := by
  rw [renderStep]
  have h1 : ∀ r2 : Rrow, (if (x == 0 || x == w) && b then r2.setRowI x vbarC true else r2).width
      = r2.width := by
    intro r2
    split
    · exact setRowI_width r2 _ _ _
    · rfl
  have h2 : ∀ r2 : Rrow, (d.lineage.foldl
      (fun rr p => if x == p.x1 then
          (if !p.amLastSibling && !p.isRoot then rr.setRowI x vbarC false else rr)
        else rr) r2).width = r2.width := by
    intro r2
    refine foldl_width_inv _ ?_ _ r2
    intro r3 p
    split
    · split
      · exact setRowI_width r3 _ _ _
      · rfl
    · rfl
  split
  · rw [appendString_width, h2, h1]
  · rw [setRowI_width, h2, h1]

theorem renderNode_width (d : NodeData) (w : Nat) (b : Bool) :
    (renderNode d w b).width = effWidth d w := by
  rw [renderNode]
  exact foldl_width_inv _ (fun r x => renderStep_width d b _ r x) _ _

theorem rrow_str_length (r : Rrow) : r.str.length = r.width + 1 := by
  rw [Rrow.str]
  show ((List.range (r.width + 1)).map (rlookup r.contents)).length = r.width + 1
  rw [List.length_map, List.length_range]

theorem renderNode_str_length (d : NodeData) (w : Nat) (b : Bool) :
    (renderNode d w b).str.length = effWidth d w + 1 := by
  rw [rrow_str_length, renderNode_width]

theorem effWidth_uncolored (d : NodeData) (w : Nat) (h : d.colored = false) :
    effWidth d w = w := by
  simp [effWidth, h]

theorem qUncol_coreOf : ∀ d1 d2 : NodeData, coreOf d1 = coreOf d2 →
    (!d1.colored) = (!d2.colored) := by
  intro d1 d2 he
  simp only [coreOf, Prod.mk.injEq] at he
  rw [he.2.2.1]

theorem qUncol_corePC : ∀ d1 d2 : NodeData, corePC d1 = corePC d2 →
    (!d1.colored) = (!d2.colored) := by
  intro d1 d2 he
  simp only [corePC, Prod.mk.injEq] at he
  rw [he.2.2.1]

theorem padStep_allUncolored (n : GNode) (di : DrawInput) (h : n.allUncolored = true) :
    (padStep n di).allUncolored = true := by
  by_cases hp : di.Padding = ""
  · simpa [padStep, hp] using h
  · rw [padStep, if_pos hp, setPaddingAll_fst n di.Padding hp]
    simp only [GNode.allUncolored] at h ⊢
    exact mapAllPadding_allData (fun d2 => !d2.colored) (fun d2 p => rfl) n di.Padding h

theorem drawState4_allUncolored (n : GNode) (di : DrawInput) (h : n.allUncolored = true) :
    ((drawOptionsCore n di).2.2).allUncolored = true := by
  have h1 : (relateAsRoot (relateAsRoot (padStep n di))).allUncolored = true := by
    refine relateAsRoot_allData _ qUncol_corePC _ ?_
    refine relateAsRoot_allData _ qUncol_corePC _ ?_
    exact padStep_allUncolored n di h
  rw [drawOptionsCore_eq]
  by_cases hb : di.Border = true
  · simp only [hb, if_true]
    exact shiftAllRight_allData _ qUncol_coreOf _ 2 h1
  · simp only [hb, Bool.false_eq_true, if_false]
    exact h1

theorem genTopBorder_length (w : Nat) (h : 1 ≤ w) : (genTopBorder w).length = w + 1 := by
  rw [genTopBorder]
  show ("┌".data ++ ((String.mk (List.replicate (w - 1) '─')).data ++ "┐".data)).length = w + 1
  simp only [List.length_append, List.length_replicate]
  show 1 + ((w - 1) + 1) = w + 1
  omega

theorem genBottomBorder_length (w : Nat) (h : 1 ≤ w) : (genBottomBorder w).length = w + 1 := by
  rw [genBottomBorder]
  show ("└".data ++ ((String.mk (List.replicate (w - 1) '─')).data ++ "┘".data)).length = w + 1
  simp only [List.length_append, List.length_replicate]
  show 1 + ((w - 1) + 1) = w + 1
  omega

theorem relateGo_data_x1 (c : GNode) (a b e f : Bool) (ctx : PCtx) :
    (relateGo c a b e f ctx).data.x1
      = if ctx.isRoot then ctx.x1 else ctx.x1 + c.data.padding.length + 1 := by
  cases c with
  | mk d cs => rfl

theorem relateGo_data_padding (c : GNode) (a b e f : Bool) (ctx : PCtx) :
    (relateGo c a b e f ctx).data.padding = c.data.padding := by
  cases c with
  | mk d cs => rfl

theorem relateGo_data_isRoot (c : GNode) (a b e f : Bool) (ctx : PCtx) :
    (relateGo c a b e f ctx).data.isRoot = c.data.isRoot := by
  cases c with
  | mk d cs => rfl

theorem relateGo_data_lineage (c : GNode) (a b e f : Bool) (ctx : PCtx) :
    (relateGo c a b e f ctx).data.lineage = ctx.lineagePre.filterMap id ++ [ctx.pAnc] := by
  cases c with
  | mk d cs =>
    show (List.replicate (ctx.lineagePre.length + 1) (none : Option Anc)
      ++ (ctx.lineagePre.filterMap id).map some ++ [some ctx.pAnc]).filterMap id
        = ctx.lineagePre.filterMap id ++ [ctx.pAnc]
    exact pre_filterMap _ _ _

theorem relateChildren_x1OK_go (dd : NodeData) (ctx2 : PCtx)
    (h1 : dd.isRoot = ctx2.isRoot) (h2 : dd.x1 = ctx2.x1)
    (hall : ∀ (c : GNode) (a b e f : Bool) (ctx3 : PCtx), (relateGo c a b e f ctx3).x1OK = true) :
    ∀ (l : List GNode) (i size : Nat) (a b : Bool),
      GNode.x1OK.go dd (relateChildren l i size a b ctx2) = true := by
  intro l
  induction l with
  | nil => intro i size a b; rfl
  | cons c rest ihr =>
    intro i size a b
    simp only [relateChildren, GNode.x1OK.go, Bool.and_eq_true]
    refine ⟨⟨?_, hall c _ _ _ _ _⟩, ihr _ _ _ _⟩
    rw [relateGo_data_x1, relateGo_data_padding, h1, h2]
    exact beq_self_eq_true _

theorem relateGo_x1OK (n : GNode) :
    ∀ (a b e f : Bool) (ctx : PCtx), (relateGo n a b e f ctx).x1OK = true := by
  induction n using GNode.inductionOn with
  | h d cs ih =>
    intro a b e f ctx
    have hgo : ∀ (l : List GNode),
        (∀ c ∈ l, ∀ (a2 b2 e2 f2 : Bool) (ctx3 : PCtx), (relateGo c a2 b2 e2 f2 ctx3).x1OK = true) →
        ∀ (dd : NodeData) (ctx2 : PCtx), dd.isRoot = ctx2.isRoot → dd.x1 = ctx2.x1 →
        ∀ (i size : Nat) (a2 b2 : Bool),
          GNode.x1OK.go dd (relateChildren l i size a2 b2 ctx2) = true := by
      intro l hl dd ctx2 h1 h2
      induction l with
      | nil => intro i size a2 b2; rfl
      | cons c rest ihr =>
        intro i size a2 b2
        simp only [relateChildren, GNode.x1OK.go, Bool.and_eq_true]
        refine ⟨⟨?_, hl c (by simp) _ _ _ _ _⟩, ihr (fun c2 hc2 => hl c2 (by simp [hc2])) _ _ _ _⟩
        rw [relateGo_data_x1, relateGo_data_padding, h1, h2]
        exact beq_self_eq_true _
    show GNode.x1OK.go _ _ = true
    exact hgo cs ih _ _ rfl rfl 0 cs.length a b

theorem relateAsRoot_x1OK (n : GNode) : (relateAsRoot n).x1OK = true := by
  cases n with
  | mk d cs =>
    show GNode.x1OK.go _ _ = true
    exact relateChildren_x1OK_go _ _ rfl rfl (fun c a b e f ctx3 => relateGo_x1OK c a b e f ctx3)
      cs 0 cs.length false true

theorem mem_filterMap_id (l : List (Option Anc)) (p : Anc) (h : p ∈ l.filterMap id) :
    some p ∈ l := by
  rw [List.mem_filterMap] at h
  obtain ⟨a, ha, he⟩ := h
  rwa [show a = some p from he] at ha

theorem mem_pre_cases (ctx : PCtx) (p : Anc)
    (h : some p ∈ (List.replicate (ctx.lineagePre.length + 1) (none : Option Anc)
      ++ (ctx.lineagePre.filterMap id).map some ++ [some ctx.pAnc])) :
    some p ∈ ctx.lineagePre ∨ p = ctx.pAnc := by
  simp only [List.mem_append, List.mem_replicate, List.mem_map, List.mem_singleton,
    List.mem_cons, List.not_mem_nil, or_false] at h
  rcases h with (h | h) | h
  · exact absurd h.2 (by simp)
  · obtain ⟨q, hq, he⟩ := h
    left
    have hqp : q = p := by injection he
    rw [← hqp]
    exact mem_filterMap_id _ q hq
  · exact Or.inr (by simpa using h)

theorem ctxInv_child (ctx : PCtx) (hinv : CtxInv ctx) (d : NodeData) (hdroot : d.isRoot = false)
    (x1p : Nat) (hx1p : ctx.x1 ≤ x1p) (b : Bool) :
    CtxInv ⟨d.isRoot, x1p,
      List.replicate (ctx.lineagePre.length + 1) (none : Option Anc)
        ++ (ctx.lineagePre.filterMap id).map some ++ [some ctx.pAnc],
      ⟨x1p, b, d.isRoot⟩⟩ := by
  obtain ⟨hinv1, hinv2, hinv3⟩ := hinv
  refine ⟨?_, ?_, ?_⟩
  · intro p hp
    rcases mem_pre_cases ctx p hp with hm | hm
    · rcases hinv1 p hm with hr | hle
      · exact Or.inl hr
      · exact Or.inr (le_trans hle hx1p)
    · subst hm
      rcases hinv2 with hr | hle
      · exact Or.inl hr
      · exact Or.inr (le_trans hle hx1p)
  · exact Or.inr (le_refl x1p)
  · intro hr
    rw [hdroot] at hr
    cases hr

theorem relateGo_lineageOK (n : GNode) :
    ∀ (a b e f : Bool) (ctx : PCtx), n.noRootFlag = true → CtxInv ctx →
      (relateGo n a b e f ctx).lineageOK = true := by
  induction n using GNode.inductionOn with
  | h d cs ih =>
    intro a b e f ctx hnr hinv
    simp only [GNode.noRootFlag, GNode.allData, Bool.and_eq_true] at hnr
    have hdroot : d.isRoot = false := by simpa using hnr.1
    have hgo : ∀ (l : List GNode),
        (∀ c ∈ l, ∀ (a2 b2 e2 f2 : Bool) (ctx3 : PCtx), c.noRootFlag = true → CtxInv ctx3 →
          (relateGo c a2 b2 e2 f2 ctx3).lineageOK = true) →
        GNode.allData.go (fun d2 => !d2.isRoot) l = true →
        ∀ (ctx2 : PCtx), CtxInv ctx2 → ∀ (i size : Nat) (a2 b2 : Bool),
          GNode.lineageOK.go (relateChildren l i size a2 b2 ctx2) = true := by
      intro l hl hnrl
      induction l with
      | nil => intro ctx2 _ i size a2 b2; rfl
      | cons c rest ihr =>
        intro ctx2 hinv2 i size a2 b2
        simp only [GNode.allData.go, Bool.and_eq_true] at hnrl
        simp only [relateChildren, GNode.lineageOK.go, Bool.and_eq_true]
        exact ⟨hl c (by simp) _ _ _ _ _ hnrl.1 hinv2,
          ihr (fun c2 h2 => hl c2 (by simp [h2])) hnrl.2 ctx2 hinv2 _ _ _ _⟩
    obtain ⟨hinv1, hinv2, hinv3⟩ := hinv
    set x1p := (if ctx.isRoot then ctx.x1 else ctx.x1 + d.padding.length + 1) with hx1p
    have hx1ge : ctx.x1 ≤ x1p := by
      rw [hx1p]
      split <;> omega
    have hall : ((ctx.lineagePre.filterMap id ++ [ctx.pAnc]).all
        (fun p => p.isRoot || decide (p.x1 < x1p))) = true := by
      rw [List.all_eq_true]
      intro p hp
      have hcase : some p ∈ ctx.lineagePre ∨ p = ctx.pAnc := by
        rcases List.mem_append.mp hp with hm | hm
        · exact Or.inl (mem_filterMap_id _ p hm)
        · exact Or.inr (List.mem_singleton.mp hm)
      by_cases hroot : ctx.isRoot = true
      · have h3 := hinv3 hroot
        rcases hcase with hm | hm
        · simp [h3.1 p hm]
        · subst hm
          simp [h3.2]
      · have hx1gt : ctx.x1 < x1p := by
          rw [hx1p, if_neg hroot]
          omega
        rcases hcase with hm | hm
        · rcases hinv1 p hm with hr | hle
          · simp [hr]
          · simp only [Bool.or_eq_true, decide_eq_true_eq]
            exact Or.inr (by omega)
        · subst hm
          rcases hinv2 with hr | hle
          · simp [hr]
          · simp only [Bool.or_eq_true, decide_eq_true_eq]
            exact Or.inr (by omega)
    have hchildren := hgo cs ih hnr.2 _
      (ctxInv_child ctx ⟨hinv1, hinv2, hinv3⟩ d hdroot x1p hx1ge b) 0 cs.length a b
    simp only [relateGo, GNode.lineageOK]
    rw [← hx1p, Bool.and_eq_true]
    constructor
    · rw [pre_filterMap]
      exact hall
    · exact hchildren

theorem mem_pre_root_cases (k : Nat) (a p : Anc)
    (h : some p ∈ (List.replicate k (none : Option Anc) ++ [some a])) : p = a := by
  simp only [List.mem_append, List.mem_replicate, List.mem_singleton, List.mem_cons,
    List.not_mem_nil, or_false] at h
  rcases h with h | h
  · exact absurd h.2 (by simp)
  · simpa using h

theorem relateChildren_lineageOK_go (l : List GNode) :
    ∀ (ctx2 : PCtx), GNode.allData.go (fun d2 => !d2.isRoot) l = true → CtxInv ctx2 →
      ∀ (i size : Nat) (a b : Bool),
        GNode.lineageOK.go (relateChildren l i size a b ctx2) = true := by
  induction l with
  | nil => intro ctx2 _ _ i size a b; rfl
  | cons c rest ihr =>
    intro ctx2 hnr hinv i size a b
    simp only [GNode.allData.go, Bool.and_eq_true] at hnr
    simp only [relateChildren, GNode.lineageOK.go, Bool.and_eq_true]
    exact ⟨relateGo_lineageOK c _ _ _ _ _ hnr.1 hinv, ihr ctx2 hnr.2 hinv _ _ _ _⟩

theorem relateAsRoot_lineageOK (n : GNode) (h : n.noStaleDesc = true) :
    (relateAsRoot n).lineageOK = true := by
  cases n with
  | mk d cs =>
    simp only [GNode.noStaleDesc] at h
    have hinv : CtxInv ⟨true, d.x1,
        List.replicate (d.lineage.length + 1) (none : Option Anc)
          ++ [some ⟨d.x1, true, true⟩], ⟨d.x1, true, true⟩⟩ := by
      refine ⟨?_, Or.inl rfl, ?_⟩
      · intro p hp
        rw [mem_pre_root_cases _ _ p hp]
        exact Or.inl rfl
      · intro _
        refine ⟨?_, rfl⟩
        intro p hp
        rw [mem_pre_root_cases _ _ p hp]
    have hchildren := relateChildren_lineageOK_go cs _ h hinv 0 cs.length false true
    simp only [relateAsRoot, GNode.lineageOK]
    rw [Bool.and_eq_true]
    constructor
    · rw [pre_filterMap_root]
      simp
    · exact hchildren

theorem relateGo_x1le (n : GNode) :
    ∀ (a b e f : Bool) (ctx : PCtx),
      (relateGo n a b e f ctx).allData (fun d2 => decide (d2.x1 ≤ d2.x2)) = true := by
  induction n using GNode.inductionOn with
  | h d cs ih =>
    intro a b e f ctx
    have hgo : ∀ (l : List GNode),
        (∀ c ∈ l, ∀ (a2 b2 e2 f2 : Bool) (ctx3 : PCtx),
          (relateGo c a2 b2 e2 f2 ctx3).allData (fun d2 => decide (d2.x1 ≤ d2.x2)) = true) →
        ∀ (ctx2 : PCtx) (i size : Nat) (a2 b2 : Bool),
          GNode.allData.go (fun d2 => decide (d2.x1 ≤ d2.x2))
            (relateChildren l i size a2 b2 ctx2) = true := by
      intro l hl
      induction l with
      | nil => intro ctx2 i size a2 b2; rfl
      | cons c rest ihr =>
        intro ctx2 i size a2 b2
        simp only [relateChildren, GNode.allData.go, Bool.and_eq_true]
        exact ⟨hl c (by simp) _ _ _ _ _, ihr (fun c2 h2 => hl c2 (by simp [h2])) _ _ _ _ _⟩
    simp only [relateGo, GNode.allData, Bool.and_eq_true]
    refine ⟨by simp, hgo cs ih _ 0 cs.length a b⟩

theorem relateChildren_x1le_go (l : List GNode) :
    ∀ (ctx2 : PCtx) (i size : Nat) (a b : Bool),
      GNode.allData.go (fun d2 => decide (d2.x1 ≤ d2.x2))
        (relateChildren l i size a b ctx2) = true := by
  induction l with
  | nil => intro ctx2 i size a b; rfl
  | cons c rest ihr =>
    intro ctx2 i size a b
    simp only [relateChildren, GNode.allData.go, Bool.and_eq_true]
    exact ⟨relateGo_x1le c _ _ _ _ _, ihr _ _ _ _ _⟩

theorem relateAsRoot_x1le (n : GNode) :
    (relateAsRoot n).allData (fun d2 => decide (d2.x1 ≤ d2.x2)) = true := by
  cases n with
  | mk d cs =>
    simp only [relateAsRoot, GNode.allData, Bool.and_eq_true]
    refine ⟨by simp, relateChildren_x1le_go cs _ 0 cs.length false true⟩

theorem allData_go_mem_desc (q : NodeData → Bool) (l : List GNode)
    (h : GNode.allData.go q l = true) :
    ∀ c ∈ GNode.GetAllDescendents.go l, c.allData q = true := by
  induction l with
  | nil => intro c hc; cases hc
  | cons c2 rest ihr =>
    intro c hc
    simp only [GNode.allData.go, Bool.and_eq_true] at h
    simp only [GNode.GetAllDescendents.go, List.cons_append, List.mem_cons,
      List.mem_append] at hc
    rcases hc with he | he | he
    · subst he; exact h.1
    · exact allData_mem_desc q c2 h.1 c he
    · exact ihr h.2 c he

theorem children_sub_go (l : List GNode) (c : GNode) (hc : c ∈ l) :
    c ∈ GNode.GetAllDescendents.go l := by
  induction l with
  | nil => cases hc
  | cons c2 rest ihr =>
    simp only [GNode.GetAllDescendents.go, List.cons_append, List.mem_cons, List.mem_append]
    rcases List.mem_cons.mp hc with he | he
    · exact Or.inl he
    · exact Or.inr (Or.inr (ihr he))

theorem desc_sub_go (l : List GNode) (c2 : GNode) (hc2 : c2 ∈ l) (x : GNode)
    (hx : x ∈ c2.GetAllDescendents) : x ∈ GNode.GetAllDescendents.go l := by
  induction l with
  | nil => cases hc2
  | cons c3 rest ihr =>
    simp only [GNode.GetAllDescendents.go, List.cons_append, List.mem_cons, List.mem_append]
    rcases List.mem_cons.mp hc2 with he | he
    · subst he
      exact Or.inr (Or.inl hx)
    · exact Or.inr (Or.inr (ihr he))

theorem mem_children_desc (t : GNode) :
    ∀ pnode ∈ t.allNodes, ∀ c ∈ pnode.children, c ∈ t.GetAllDescendents := by
  induction t using GNode.inductionOn with
  | h d cs ih =>
    intro pnode hp c hc
    simp only [GNode.allNodes, List.mem_cons] at hp
    rcases hp with he | he
    · subst he
      exact children_sub_go cs c hc
    · simp only [GNode.GetAllDescendents] at he ⊢
      have key : ∀ (l : List GNode),
          (∀ c2 ∈ l, ∀ p2 ∈ c2.allNodes, ∀ c3 ∈ p2.children, c3 ∈ c2.GetAllDescendents) →
          pnode ∈ GNode.GetAllDescendents.go l → c ∈ GNode.GetAllDescendents.go l := by
        intro l hl hmem
        induction l with
        | nil => cases hmem
        | cons c2 rest ihr =>
          simp only [GNode.GetAllDescendents.go, List.cons_append, List.mem_cons,
            List.mem_append] at hmem ⊢
          rcases hmem with he2 | he2 | he2
          · subst he2
            exact Or.inr (Or.inl (hl pnode (by simp [GNode.allNodes]) pnode
              (by simp [GNode.allNodes]) c hc))
          · refine Or.inr (Or.inl (hl c2 (by simp) pnode ?_ c hc))
            simp [GNode.allNodes, he2]
          · exact Or.inr (Or.inr (ihr (fun c3 h3 => hl c3 (by simp [h3])) he2))
      exact key cs ih he

theorem allData_mem_nodes (q : NodeData → Bool) (t : GNode) (h : t.allData q = true) :
    ∀ m ∈ t.allNodes, m.allData q = true := by
  intro m hm
  simp only [GNode.allNodes, List.mem_cons] at hm
  rcases hm with he | he
  · subst he; exact h
  · exact allData_mem_desc q t h m he

theorem x1OK_go_mem (dp : NodeData) (l : List GNode) (h : GNode.x1OK.go dp l = true) :
    ∀ c ∈ l, (c.data.x1 = if dp.isRoot then dp.x1 else dp.x1 + c.data.padding.length + 1)
      ∧ c.x1OK = true := by
  induction l with
  | nil => intro c hc; cases hc
  | cons c2 rest ihr =>
    intro c hc
    simp only [GNode.x1OK.go, Bool.and_eq_true, beq_iff_eq] at h
    rcases List.mem_cons.mp hc with he | he
    · subst he
      exact ⟨h.1.1, h.1.2⟩
    · exact ihr h.2 c he

theorem x1OK_mem_nodes (t : GNode) (h : t.x1OK = true) :
    ∀ m ∈ t.allNodes, m.x1OK = true := by
  induction t using GNode.inductionOn with
  | h d cs ih =>
    intro m hm
    simp only [GNode.allNodes, List.mem_cons] at hm
    rcases hm with he | he
    · subst he; exact h
    · simp only [GNode.GetAllDescendents] at he
      have hcs : ∀ c ∈ cs, c.x1OK = true := by
        intro c hc
        exact (x1OK_go_mem d cs h c hc).2
      have key : ∀ (l : List GNode),
          (∀ c2 ∈ l, c2.x1OK = true → ∀ m2 ∈ c2.allNodes, m2.x1OK = true) →
          (∀ c2 ∈ l, c2.x1OK = true) →
          m ∈ GNode.GetAllDescendents.go l → m.x1OK = true := by
        intro l hl hok hmem
        induction l with
        | nil => cases hmem
        | cons c2 rest ihr =>
          simp only [GNode.GetAllDescendents.go, List.cons_append, List.mem_cons,
            List.mem_append] at hmem
          rcases hmem with he2 | he2 | he2
          · subst he2
            exact hok m (by simp)
          · exact hl c2 (by simp) (hok c2 (by simp)) m (by simp [GNode.allNodes, he2])
          · exact ihr (fun c3 h3 => hl c3 (by simp [h3])) (fun c3 h3 => hok c3 (by simp [h3])) he2
      exact key cs (fun c2 h2 => ih c2 h2) hcs he

theorem lineageOK_go_mem (l : List GNode) (h : GNode.lineageOK.go l = true) :
    ∀ c ∈ l, c.lineageOK = true := by
  induction l with
  | nil => intro c hc; cases hc
  | cons c2 rest ihr =>
    intro c hc
    simp only [GNode.lineageOK.go, Bool.and_eq_true] at h
    rcases List.mem_cons.mp hc with he | he
    · subst he; exact h.1
    · exact ihr h.2 c he

theorem lineageOK_mem_nodes (t : GNode) (h : t.lineageOK = true) :
    ∀ m ∈ t.allNodes, m.lineageOK = true := by
  induction t using GNode.inductionOn with
  | h d cs ih =>
    intro m hm
    simp only [GNode.allNodes, List.mem_cons] at hm
    rcases hm with he | he
    · subst he; exact h
    · simp only [GNode.GetAllDescendents] at he
      simp only [GNode.lineageOK, Bool.and_eq_true] at h
      have key : ∀ (l : List GNode),
          (∀ c2 ∈ l, c2.lineageOK = true → ∀ m2 ∈ c2.allNodes, m2.lineageOK = true) →
          GNode.lineageOK.go l = true →
          m ∈ GNode.GetAllDescendents.go l → m.lineageOK = true := by
        intro l hl hok hmem
        induction l with
        | nil => cases hmem
        | cons c2 rest ihr =>
          simp only [GNode.lineageOK.go, Bool.and_eq_true] at hok
          simp only [GNode.GetAllDescendents.go, List.cons_append, List.mem_cons,
            List.mem_append] at hmem
          rcases hmem with he2 | he2 | he2
          · subst he2
            exact hok.1
          · exact hl c2 (by simp) hok.1 m (by simp [GNode.allNodes, he2])
          · exact ihr (fun c3 h3 => hl c3 (by simp [h3])) hok.2 he2
      exact key cs (fun c2 h2 => ih c2 h2) h.2 he

theorem descMaxWidth_foldl_ge_base (l : List GNode) :
    ∀ acc : Nat, acc ≤ l.foldl
      (fun m c => let declen := c.data.x2 + c.data.padding.length;
        if declen > m then declen else m) acc := by
  induction l with
  | nil => intro acc; exact le_refl acc
  | cons c rest ihr =>
    intro acc
    rw [List.foldl_cons]
    refine le_trans ?_ (ihr _)
    simp only
    split <;> omega

theorem descMaxWidth_ge_mem (t : GNode) (c : GNode) (hc : c ∈ t.GetAllDescendents) :
    c.data.x2 + c.data.padding.length ≤ descMaxWidth t := by
  rw [descMaxWidth]
  have key : ∀ (l : List GNode) (acc : Nat), c ∈ l →
      c.data.x2 + c.data.padding.length ≤ l.foldl
        (fun m c2 => let declen := c2.data.x2 + c2.data.padding.length;
          if declen > m then declen else m) acc := by
    intro l
    induction l with
    | nil => intro acc hm; cases hm
    | cons c2 rest ihr =>
      intro acc hm
      rw [List.foldl_cons]
      rcases List.mem_cons.mp hm with he | he
      · subst he
        refine le_trans ?_ (descMaxWidth_foldl_ge_base rest _)
        simp only
        split <;> omega
      · exact ihr _ he
  exact key _ 0 hc

theorem mapAllPadding_go_allData (q : NodeData → Bool)
    (hq3 : ∀ (d : NodeData) (p : String), q { d with padding := p } = q d)
    (l : List GNode) (p : String) (h : GNode.allData.go q l = true) :
    GNode.allData.go q (GNode.mapAllPadding.go l p) = true := by
  induction l with
  | nil => rfl
  | cons c rest ihr =>
    simp only [GNode.allData.go, Bool.and_eq_true] at h
    simp only [GNode.mapAllPadding.go, GNode.allData.go, Bool.and_eq_true]
    exact ⟨mapAllPadding_allData q hq3 c p h.1, ihr h.2⟩

theorem padStep_noStaleDesc (n : GNode) (di : DrawInput) (h : n.noStaleDesc = true) :
    (padStep n di).noStaleDesc = true := by
  by_cases hp : di.Padding = ""
  · simpa [padStep, hp] using h
  · rw [padStep, if_pos hp, setPaddingAll_fst n di.Padding hp]
    cases n with
    | mk d cs =>
      simp only [GNode.noStaleDesc] at h
      simp only [GNode.mapAllPadding, GNode.noStaleDesc]
      exact mapAllPadding_go_allData (fun d2 => !d2.isRoot) (fun d2 p2 => rfl) cs di.Padding h

theorem relateAsRoot_noStaleDesc (n : GNode) (h : n.noStaleDesc = true) :
    (relateAsRoot n).noStaleDesc = true := by
  cases n with
  | mk d cs =>
    simp only [GNode.noStaleDesc] at h
    simp only [relateAsRoot, GNode.noStaleDesc]
    refine relateChildren_allData _ ?_ cs 0 cs.length false true _ h
    intro d1 d2 he
    simp only [coreOf, Prod.mk.injEq] at he
    rw [he.2.2.2.2.2]

theorem lineageOK_strict (c : GNode) (h : c.lineageOK = true) :
    ∀ p ∈ c.data.lineage, p.x1 = c.data.x1 → p.isRoot = true := by
  cases c with
  | mk dc csc =>
    simp only [GNode.lineageOK, Bool.and_eq_true, List.all_eq_true] at h
    intro p hpmem hpx
    simp only [GNode.data_mk] at hpmem hpx
    rcases (Bool.or_eq_true _ _).mp (h.1 p hpmem) with hr | hlt
    · exact hr
    · simp only [decide_eq_true_eq] at hlt
      omega

theorem rlookup_nil (i : Nat) : rlookup [] i = Char.ofNat 0 := rfl

theorem setRowI_lookup_other (r : Rrow) (i : Nat) (ru : Char) (ov : Bool) (j : Nat) (h : j ≠ i) :
    rlookup (r.setRowI i ru ov).contents j = rlookup r.contents j := by
  have hcons : rlookup ((i, ru) :: r.contents) j = rlookup r.contents j := by
    rw [rlookup, rlookup, List.find?_cons_of_neg]
    simp only [beq_eq_false_iff_ne, ne_eq, decide_not]
    simp only [beq_iff_eq]
    exact fun he => h he.symm
  rw [Rrow.setRowI]
  split
  · split
    · exact hcons
    · split
      · exact hcons
      · rfl
  · rfl

theorem setRowI_lookup_write (r : Rrow) (i : Nat) (ru : Char) (ov : Bool)
    (hw : i ≤ r.width) (hz : rlookup r.contents i = Char.ofNat 0) :
    rlookup (r.setRowI i ru ov).contents i = ru := by
  have hcons : rlookup ((i, ru) :: r.contents) i = ru := by
    rw [rlookup, List.find?_cons_of_pos]
    simp
  rw [Rrow.setRowI, if_pos hw]
  split
  · exact hcons
  · rw [if_pos (by simp [hz])]
    exact hcons

theorem enumFrom_fst_ge (l : List Char) : ∀ (k : Nat) (p : Nat × Char), p ∈ l.enumFrom k → k ≤ p.1 := by
  induction l with
  | nil => intro k p hp; cases hp
  | cons c rest ihr =>
    intro k p hp
    rw [List.enumFrom] at hp
    rcases List.mem_cons.mp hp with he | he
    · subst he; exact le_refl k
    · exact le_trans (Nat.le_succ k) (ihr (k + 1) p he)

theorem foldl_setRowI_lookup (afterI : Nat) (i : Nat) :
    ∀ (ps : List (Nat × Char)) (r : Rrow), (∀ p ∈ ps, afterI + p.1 ≠ i) →
      rlookup ((ps.foldl (fun r2 p => r2.setRowI (afterI + p.1) p.2 false) r).contents) i
        = rlookup r.contents i := by
  intro ps
  induction ps with
  | nil => intro r _; rfl
  | cons p rest ihr =>
    intro r hps
    rw [List.foldl_cons, ihr _ (fun p2 h2 => hps p2 (by simp [h2]))]
    exact setRowI_lookup_other r _ _ _ i (fun he => hps p (by simp) he.symm)

theorem appendString_lookup_head (r : Rrow) (afterI : Nat) (s : String) (ch : Char)
    (rest : List Char) (hs : s.toList = ch :: rest)
    (hw : afterI ≤ r.width) (hz : rlookup r.contents afterI = Char.ofNat 0) :
    rlookup (r.appendString afterI s).contents afterI = ch := by
  rw [Rrow.appendString, if_pos hw]
  rw [List.enum, hs, List.enumFrom, List.foldl_cons]
  have h1 : ∀ p ∈ rest.enumFrom 1, afterI + p.1 ≠ afterI := by
    intro p hp
    have := enumFrom_fst_ge rest 1 p hp
    omega
  rw [foldl_setRowI_lookup afterI afterI _ _ h1]
  show rlookup (r.setRowI (afterI + 0) ch false).contents afterI = ch
  rw [Nat.add_zero]
  exact setRowI_lookup_write r afterI ch false hw hz

theorem renderStep_lookup_of_ne (d : NodeData) (w : Nat) (r : Rrow) (x i : Nat)
    (hx1 : x ≠ d.x1) (hxi : x ≠ i) :
    rlookup (renderStep d false w r x).contents i = rlookup r.contents i := by
  rw [renderStep]
  have h1 : (if (x == 0 || x == w) && false then r.setRowI x vbarC true else r) = r := by
    simp
  rw [h1]
  have h2 : rlookup ((d.lineage.foldl (fun rr p => if x == p.x1 then
      (if !p.amLastSibling && !p.isRoot then rr.setRowI x vbarC false else rr) else rr) r)).contents i
      = rlookup r.contents i := by
    have key : ∀ (lin : List Anc) (r2 : Rrow),
        rlookup ((lin.foldl (fun rr p => if x == p.x1 then
          (if !p.amLastSibling && !p.isRoot then rr.setRowI x vbarC false else rr) else rr)
            r2)).contents i = rlookup r2.contents i := by
      intro lin
      induction lin with
      | nil => intro r2; rfl
      | cons p rest ihr =>
        intro r2
        rw [List.foldl_cons, ihr]
        split
        · split
          · exact setRowI_lookup_other r2 _ _ _ i (fun he => hxi he.symm)
          · rfl
        · rfl
    exact key d.lineage r
  rw [if_neg (by simpa using hx1)]
  rw [setRowI_lookup_other _ _ _ _ i (fun he => hxi he.symm), h2]

theorem render_cell_x1 (d : NodeData) (w : Nat) (ch : Char) (rest : List Char)
    (hx : d.x1 ≤ w)
    (hlin : ∀ p ∈ d.lineage, p.x1 = d.x1 → p.isRoot = true)
    (hcontent : (genDecorator d 0 ++ displayContents d).toList = ch :: rest) :
    rlookup (renderNode d w false).contents d.x1 = ch := by
  have hxw : d.x1 ≤ effWidth d w := le_trans hx (by rw [effWidth]; split <;> omega)
  rw [renderNode]
  set w2 := effWidth d w with hw2
  have hsplit : w2 + 1 = d.x1 + (1 + (w2 - d.x1)) := by omega
  rw [hsplit, List.range_add, List.foldl_append]
  have hphase1 : rlookup ((List.range d.x1).foldl (renderStep d false w2) (newRrow w2)).contents d.x1
      = Char.ofNat 0 := by
    have key : ∀ (xs : List Nat) (r : Rrow), (∀ x ∈ xs, x < d.x1) →
        rlookup (xs.foldl (renderStep d false w2) r).contents d.x1 = rlookup r.contents d.x1 := by
      intro xs
      induction xs with
      | nil => intro r _; rfl
      | cons x restx ihr =>
        intro r hxs
        rw [List.foldl_cons, ihr _ (fun x2 h2 => hxs x2 (by simp [h2]))]
        have hlt := hxs x (by simp)
        exact renderStep_lookup_of_ne d w2 r x d.x1 (by omega) (by omega)
    rw [key _ _ (fun x hx2 => List.mem_range.mp hx2)]
    rfl
  have hwidth1 : ((List.range d.x1).foldl (renderStep d false w2) (newRrow w2)).width = w2 :=
    foldl_width_inv _ (fun r x => renderStep_width d false w2 r x) _ _
  rw [show (1 + (w2 - d.x1)) = (w2 - d.x1) + 1 from by omega, List.range_succ_eq_map,
    List.map_cons, List.foldl_cons]
  set r1 := (List.range d.x1).foldl (renderStep d false w2) (newRrow w2) with hr1
  have hstep : rlookup (renderStep d false w2 r1 (d.x1 + 0)).contents d.x1 = ch := by
    rw [Nat.add_zero, renderStep]
    have h1 : (if (d.x1 == 0 || d.x1 == w2) && false then r1.setRowI d.x1 vbarC true else r1)
        = r1 := by simp
    rw [h1]
    have h2 : (d.lineage.foldl (fun rr p => if d.x1 == p.x1 then
        (if !p.amLastSibling && !p.isRoot then rr.setRowI d.x1 vbarC false else rr) else rr) r1)
        = r1 := by
      have key : ∀ (lin : List Anc) (r2 : Rrow), (∀ p ∈ lin, p.x1 = d.x1 → p.isRoot = true) →
          (lin.foldl (fun rr p => if d.x1 == p.x1 then
            (if !p.amLastSibling && !p.isRoot then rr.setRowI d.x1 vbarC false else rr) else rr)
              r2) = r2 := by
        intro lin
        induction lin with
        | nil => intro r2 _; rfl
        | cons p restp ihr =>
          intro r2 hl
          rw [List.foldl_cons]
          have hone : (if d.x1 == p.x1 then
              (if !p.amLastSibling && !p.isRoot then r2.setRowI d.x1 vbarC false else r2)
              else r2) = r2 := by
            by_cases he : d.x1 == p.x1
            · rw [if_pos he]
              have : p.isRoot = true := hl p (by simp) (eq_of_beq he).symm
              rw [if_neg (by simp [this])]
            · rw [if_neg he]
          rw [hone]
          exact ihr _ (fun p2 h2 => hl p2 (by simp [h2]))
      exact key d.lineage r1 hlin
    rw [h2, if_pos (by simp)]
    refine appendString_lookup_head r1 d.x1 _ ch rest hcontent ?_ hphase1
    rw [hwidth1]
    exact hxw
  have hphase3 : ∀ (xs : List Nat) (r : Rrow), (∀ x ∈ xs, d.x1 < x) →
      rlookup (xs.foldl (renderStep d false w2) r).contents d.x1 = rlookup r.contents d.x1 := by
    intro xs
    induction xs with
    | nil => intro r _; rfl
    | cons x restx ihr =>
      intro r hxs
      rw [List.foldl_cons, ihr _ (fun x2 h2 => hxs x2 (by simp [h2]))]
      have hgt := hxs x (by simp)
      exact renderStep_lookup_of_ne d w2 r x d.x1 (by omega) (by omega)
  rw [hphase3 _ _ ?_]
  · exact hstep
  · intro x hxm
    simp only [List.mem_map, List.mem_range] at hxm
    obtain ⟨t, _, he⟩ := hxm
    omega

theorem allUncolored_colored_false (m : GNode) (h : m.allUncolored = true) :
    m.data.colored = false := by
  cases m with
  | mk d cs =>
    simp only [GNode.allUncolored, GNode.allData, Bool.and_eq_true] at h
    simpa using h.1

theorem genDecorator_toList (d : NodeData) (hroot : d.isRoot = false) :
    (genDecorator d 0 ++ displayContents d).toList
      = (if d.amLastSibling then '└' else '├') ::
        (List.replicate (d.padding.length - 1) '─' ++ ' ' :: (displayContents d).toList) := by
  rw [genDecorator, if_neg (by simp [hroot])]
  by_cases ha : d.amLastSibling = true <;> simp [ha, String.toList]

theorem render_cell_connector (d : NodeData) (w : Nat)
    (hroot : d.isRoot = false) (hx : d.x1 ≤ w)
    (hlin : ∀ p ∈ d.lineage, p.x1 = d.x1 → p.isRoot = true) :
    (renderNode d w false).str.toList[d.x1]? = some (if d.amLastSibling then '└' else '├') := by
  have hcell : rlookup (renderNode d w false).contents d.x1
      = (if d.amLastSibling then '└' else '├') :=
    render_cell_x1 d w _ _ hx hlin (genDecorator_toList d hroot)
  have hw2 : (renderNode d w false).width = effWidth d w := renderNode_width d w false
  have hxw : d.x1 < effWidth d w + 1 := by
    have : w ≤ effWidth d w := by
      rw [effWidth]
      split <;> omega
    omega
  rw [Rrow.str]
  show ((List.range ((renderNode d w false).width + 1)).map
    (rlookup (renderNode d w false).contents))[d.x1]? = _
  rw [List.getElem?_map, hw2, List.getElem?_range (by omega)]
  simp only [Option.map_some']
  rw [hcell]

set_option maxRecDepth 16000

set_option maxHeartbeats 2000000

/-- C1 counterexample: Draw pads every row with the fill rune out to the
canvas width, so the second line of the round-trip scenario's rendering
is the claimed line plus nine trailing spaces, and the whole rendering
is not the claimed byte sequence. -/
theorem c1_counterexample :
    (exTree.Draw).1 ≠ "root\n├── child1\n├── child2\n└── child3\n    └── grandchild1\n" ∧
    (drawLines exTree { Border := false, Debug := false, Padding := "   " })[1]? =
      some "├── child1         " := by
  decide

/-- C1 (amended): Draw on the round-trip tree reproduces the claimed
diagram byte-for-byte except that every line is right-padded with the
space fill rune to the uniform 19-column canvas (canvas width 18 plus
one), grandchild1 indented four columns. -/
theorem c1_draw_roundtrip :
    (exTree.Draw).1 =
      "root               \n├── child1         \n├── child2         \n└── child3         \n    └── grandchild1\n" := by
  decide

/-- C2: depth bookkeeping: a fresh node has depth 0, AddChild on a free
root rewrites the whole subtree's depths, and grafting any prebuilt
subtree (whatever stale depths it carries) at any path of a
depth-correct tree leaves every node's depth equal to its parent's depth
plus one, the root at 0 (this is what depthsOK at 0 states). -/
theorem c2_depth_invariant (s : String) (n nc n2 : GNode) (path : List Nat) :
    (NewNode s).depthsOK 0 = true ∧
    (n.AddChild nc).depthsOK 0 = true ∧
    (n.depthsOK 0 = true → n.addChildAt path nc = some n2 → n2.depthsOK 0 = true) := by
  refine ⟨rfl, ?_, ?_⟩
  · rw [GNode.AddChild]
    exact depthsOK_setDepth _ 0
  · intro h1 h2
    exact addChildAtAux_depthsOK path n 0 nc n2 h1 h2

/-- C2 witness: the invariant discharged on a concrete graft. -/
theorem c2_depth_invariant_witness :
    pairTree.depthsOK 0 = true ∧ pairTree.addChildAt [0] (NewNode "z") = some graftRes ∧
    graftRes.depthsOK 0 = true := by
  refine ⟨by decide, rfl, ?_⟩
  exact (c2_depth_invariant "x" pairTree (NewNode "z") graftRes [0]).2.2 (by decide) rfl

/-- C3 counterexample: a second bordered render of the same tree with
the same options uses a different canvas width (9 instead of 7): the
border pass shifts every anchor right by two and the shift persists in
the tree. -/
theorem c3_counterexample :
    canvasWidth (drawState pairTree borderDI) borderDI ≠ canvasWidth pairTree borderDI := by
  decide

/-- C3 (amended): without the border option the canvas width is
deterministic across repeated renders with no mutation in between; the
bordered case is excluded because shiftAllRight permanently moves the
root's anchor (see the counterexample). -/
theorem c3_width_stable (n : GNode) (di : DrawInput) (h : di.Border = false) :
    canvasWidth (drawState n di) di = canvasWidth n di :=
  canvasWidth_stable n di h

/-- C3 witness. -/
theorem c3_width_stable_witness :
    ({ Border := false, Debug := false, Padding := "" } : DrawInput).Border = false ∧
    canvasWidth (drawState pairTree { Border := false, Debug := false, Padding := "" })
        { Border := false, Debug := false, Padding := "" }
      = canvasWidth pairTree { Border := false, Debug := false, Padding := "" } :=
  ⟨rfl, c3_width_stable pairTree { Border := false, Debug := false, Padding := "" } rfl⟩

/-- C5: styled labels do not perturb column alignment.  For any tree
with no stale isRoot flags and a nonempty root padding, and any two
siblings in the tree Draw() renders — one plain, one colored via a
SetColor* method, with equal plain label lengths — both siblings are
assigned the same anchor column x1, their rows are lines of the
rendering, and each row carries its connector glyph exactly at that
shared anchor column: the invisible style bytes never shift the
connector. -/
theorem c5_colored_alignment (n : GNode) (pnode c1 c2 : GNode)
    (hstale : n.noStaleDesc = true)
    (hrpad : n.data.padding ≠ "")
    (hp : pnode ∈ ((n.Draw).2).allNodes)
    (hc1 : c1 ∈ pnode.children) (hc2 : c2 ∈ pnode.children)
    (hplain : c1.data.colored = false) (hcol : c2.data.colored = true)
    (hlen : c1.data.contents.length = c2.data.contents.length) :
    c1.data.x1 = c2.data.x1 ∧
    (renderNode c1.data (canvasWidth n (drawDI n)) false).str ∈ drawLines n (drawDI n) ∧
    (renderNode c2.data (canvasWidth n (drawDI n)) false).str ∈ drawLines n (drawDI n) ∧
    (renderNode c1.data (canvasWidth n (drawDI n)) false).str.toList[c1.data.x1]?
      = some (if c1.data.amLastSibling then '└' else '├') ∧
    (renderNode c2.data (canvasWidth n (drawDI n)) false).str.toList[c2.data.x1]?
      = some (if c2.data.amLastSibling then '└' else '├') := by
  have hpad' : (drawDI n).Padding ≠ "" := hrpad
  have ht' : (n.Draw).2 = relateAsRoot (relateAsRoot (padStep n (drawDI n))) := rfl
  have hW : canvasWidth n (drawDI n)
      = descMaxWidth (relateAsRoot (relateAsRoot (padStep n (drawDI n)))) := rfl
  set t' := relateAsRoot (relateAsRoot (padStep n (drawDI n))) with ht'def
  rw [ht'] at hp
  -- tree-level invariants of the relayout output
  have hx1ok : t'.x1OK = true := relateAsRoot_x1OK _
  have hstale' : t'.noStaleDesc = true :=
    relateAsRoot_noStaleDesc _ (relateAsRoot_noStaleDesc _ (padStep_noStaleDesc n _ hstale))
  have hlinok : t'.lineageOK = true :=
    relateAsRoot_lineageOK _ (relateAsRoot_noStaleDesc _ (padStep_noStaleDesc n _ hstale))
  have hx1le : t'.allData (fun d2 => decide (d2.x1 ≤ d2.x2)) = true := relateAsRoot_x1le _
  have hpadall : t'.allPadding (drawDI n).Padding = true := drawState_allPadding n (drawDI n) hpad'
  -- locating the siblings
  have hc1d : c1 ∈ t'.GetAllDescendents := mem_children_desc t' pnode hp c1 hc1
  have hc2d : c2 ∈ t'.GetAllDescendents := mem_children_desc t' pnode hp c2 hc2
  have hc1n : c1 ∈ t'.allNodes := by simp [GNode.allNodes, hc1d]
  have hc2n : c2 ∈ t'.allNodes := by simp [GNode.allNodes, hc2d]
  -- per-node facts
  have hpadeq : ∀ m ∈ t'.allNodes, m.data.padding = (drawDI n).Padding := by
    intro m hm
    have := allData_self _ m (allData_mem_nodes _ t' hpadall m hm)
    simpa using this
  have hx1eq : c1.data.x1 = c2.data.x1 := by
    have hpOK : pnode.x1OK = true := x1OK_mem_nodes t' hx1ok pnode hp
    cases pnode with
    | mk dp csp =>
      have h1 := x1OK_go_mem dp csp hpOK c1 hc1
      have h2 := x1OK_go_mem dp csp hpOK c2 hc2
      rw [h1.1, h2.1, hpadeq c1 hc1n, hpadeq c2 hc2n]
  have hlines : drawLines n (drawDI n) =
      (renderNode t'.data (canvasWidth n (drawDI n)) false).str ::
        t'.GetAllDescendents.map
          (fun c => (renderNode c.data (canvasWidth n (drawDI n)) false).str) := by
    show ([] ++ _ ++ []) = _
    rw [List.nil_append, List.append_nil]
    rfl
  have hmem1 : (renderNode c1.data (canvasWidth n (drawDI n)) false).str
      ∈ drawLines n (drawDI n) := by
    rw [hlines]
    exact List.mem_cons_of_mem _ (List.mem_map_of_mem _ hc1d)
  have hmem2 : (renderNode c2.data (canvasWidth n (drawDI n)) false).str
      ∈ drawLines n (drawDI n) := by
    rw [hlines]
    exact List.mem_cons_of_mem _ (List.mem_map_of_mem _ hc2d)
  -- the connector lands at the anchor column of each sibling
  have hcell : ∀ c ∈ t'.GetAllDescendents,
      (renderNode c.data (canvasWidth n (drawDI n)) false).str.toList[c.data.x1]?
        = some (if c.data.amLastSibling then '└' else '├') := by
    intro c hcd
    have hcn : c ∈ t'.allNodes := by simp [GNode.allNodes, hcd]
    have hroot : c.data.isRoot = false := by
      cases ht : t' with
      | mk dt cst =>
        rw [ht] at hstale' hcd
        simp only [GNode.noStaleDesc] at hstale'
        simp only [GNode.GetAllDescendents] at hcd
        have := allData_self _ c (allData_go_mem_desc _ cst hstale' c hcd)
        simpa using this
    have hxw : c.data.x1 ≤ canvasWidth n (drawDI n) := by
      have h1 := allData_self _ c (allData_mem_nodes _ t' hx1le c hcn)
      have h2 : c.data.x1 ≤ c.data.x2 := by simpa using h1
      have h3 := descMaxWidth_ge_mem t' c hcd
      rw [hW]
      omega
    have hlin : ∀ p ∈ c.data.lineage, p.x1 = c.data.x1 → p.isRoot = true :=
      lineageOK_strict c (lineageOK_mem_nodes t' hlinok c hcn)
    exact render_cell_connector c.data _ hroot hxw hlin
  exact ⟨hx1eq, hmem1, hmem2, hcell c1 hc1d, hcell c2 hc2d⟩

/-- C5 witness: a root with the plain child alpha and the red child
bravo. -/
theorem c5_colored_alignment_witness :
    c5Tree.noStaleDesc = true ∧ c5Tree.data.padding ≠ "" ∧
    (c5Tree.Draw).2 ∈ ((c5Tree.Draw).2).allNodes ∧
    c5c1 ∈ ((c5Tree.Draw).2).children ∧ c5c2 ∈ ((c5Tree.Draw).2).children ∧
    c5c1.data.colored = false ∧ c5c2.data.colored = true ∧
    c5c1.data.contents.length = c5c2.data.contents.length ∧
    c5c1.data.x1 = c5c2.data.x1 ∧
    (renderNode c5c1.data (canvasWidth c5Tree (drawDI c5Tree)) false).str.toList[c5c1.data.x1]?
      = some (if c5c1.data.amLastSibling then '└' else '├') ∧
    (renderNode c5c2.data (canvasWidth c5Tree (drawDI c5Tree)) false).str.toList[c5c2.data.x1]?
      = some (if c5c2.data.amLastSibling then '└' else '├') := by
  have hm1 : c5c1 ∈ ((c5Tree.Draw).2).children :=
    List.getElem?_mem (show (((c5Tree.Draw).2).children)[0]? = some c5c1 from rfl)
  have hm2 : c5c2 ∈ ((c5Tree.Draw).2).children :=
    List.getElem?_mem (show (((c5Tree.Draw).2).children)[1]? = some c5c2 from rfl)
  have happ := c5_colored_alignment c5Tree ((c5Tree.Draw).2) c5c1 c5c2
    (by decide) (by decide) (List.mem_cons_self _ _) hm1 hm2
    (by decide) (by decide) (by decide)
  exact ⟨by decide, by decide, List.mem_cons_self _ _, hm1, hm2, by decide, by decide, by decide,
    happ.1, happ.2.2.2.1, happ.2.2.2.2⟩

/-- C6: the padding setter errors exactly on the empty string;
SetPaddingAll with a nonempty padding succeeds and propagates it to
every node; with an empty padding it mutates only the receiver and
surfaces the first descendant's validation error.  These two setters are
the only fallible operations of the embedded API: every other function
returns no error value. -/
theorem c6_padding_validation (n : GNode) (p : String) :
    ((n.setPadding p).2 ≠ none ↔ p = "") ∧
    (p ≠ "" → (n.SetPaddingAll p).2 = none ∧ (n.SetPaddingAll p).1.allPadding p = true) ∧
    (p = "" → n.children ≠ [] → (n.SetPaddingAll p).2 = some paddingErrMsg ∧
      (n.SetPaddingAll p).1 = GNode.mk { n.data with padding := p } n.children) := by
  refine ⟨setPadding_err_iff n p, ?_, ?_⟩
  · intro hp
    have hlen : ¬p.length < 1 := fun hl => hp ((string_length_lt_one_iff p).mp hl)
    constructor
    · simp [GNode.SetPaddingAll, hlen]
    · rw [setPaddingAll_fst n p hp]
      exact mapAllPadding_allPadding n p
  · intro hp hcs
    subst hp
    cases n with
    | mk d cs =>
      cases cs with
      | nil => exact absurd rfl hcs
      | cons c rest =>
        constructor
        · simp [GNode.SetPaddingAll]
        · simp [GNode.SetPaddingAll]

/-- C6 witness. -/
theorem c6_padding_validation_witness :
    ("" : String) ≠ " " ∧ (" " : String) ≠ "" ∧ pairTree.children ≠ [] ∧
    ((pairTree.setPadding " ").2 ≠ none ↔ (" " : String) = "") ∧
    ((pairTree.SetPaddingAll " ").2 = none ∧ (pairTree.SetPaddingAll " ").1.allPadding " " = true) ∧
    ((pairTree.SetPaddingAll "").2 = some paddingErrMsg ∧
      (pairTree.SetPaddingAll "").1 = GNode.mk { pairTree.data with padding := "" } pairTree.children) := by
  have hne : pairTree.children ≠ [] := by
    intro h
    exact absurd (congrArg List.length h) (by decide)
  refine ⟨by decide, by decide, hne, (c6_padding_validation pairTree " ").1, ?_, ?_⟩
  · exact (c6_padding_validation pairTree " ").2.1 (by decide)
  · exact (c6_padding_validation pairTree "").2.2 rfl hne

/-- C4 counterexample: with a colored root whose styled label overflows
the canvas computed from its short child, the bordered rendering's
second row has visible width 12 while the top border rule has visible
width 8: not every rendered row has the same visible column width. -/
theorem c4_counterexample :
    visibleLen ((drawLines colorTree borderDI).getD 1 "") ≠
      visibleLen ((drawLines colorTree borderDI).getD 0 "") := by
  decide

/-- C4 (amended): for a tree with no colored node (so visible width is
the rune count), every row of the bordered rendering, the generated top
and bottom rules included, has the same width W+1, and the first line is
the glyph ┌ followed by W−1 horizontal rules followed by ┐, W being the
canvas width.  Colored nodes are excluded because a styled label
overflowing the canvas breaks the uniform visible width (see the
counterexample). -/
theorem c4_border_uniform (n : GNode) (p : String) (h : n.allUncolored = true) :
    (∀ l ∈ drawLines n { Border := true, Debug := false, Padding := p },
      l.length = canvasWidth n { Border := true, Debug := false, Padding := p } + 1) ∧
    (drawLines n { Border := true, Debug := false, Padding := p }).head? =
      some ("┌" ++ String.mk (List.replicate
        (canvasWidth n { Border := true, Debug := false, Padding := p } - 1) '─') ++ "┐") := by
  have h4 : (((relateAsRoot (relateAsRoot (padStep n
      { Border := true, Debug := false, Padding := p }))).shiftAllRight 2)).allUncolored
      = true := drawState4_allUncolored n { Border := true, Debug := false, Padding := p } h
  have hlines : drawLines n { Border := true, Debug := false, Padding := p } =
      [genTopBorder (descMaxWidth (relateAsRoot (relateAsRoot (padStep n
          { Border := true, Debug := false, Padding := p }))) + 3)] ++
      ((renderNode ((relateAsRoot (relateAsRoot (padStep n
          { Border := true, Debug := false, Padding := p }))).shiftAllRight 2).data
          (descMaxWidth (relateAsRoot (relateAsRoot (padStep n
            { Border := true, Debug := false, Padding := p }))) + 3) true).str ::
        ((relateAsRoot (relateAsRoot (padStep n
          { Border := true, Debug := false, Padding := p }))).shiftAllRight 2).GetAllDescendents.map
          (fun c => (renderNode c.data (descMaxWidth (relateAsRoot (relateAsRoot (padStep n
            { Border := true, Debug := false, Padding := p }))) + 3) true).str)) ++
      [genBottomBorder (descMaxWidth (relateAsRoot (relateAsRoot (padStep n
          { Border := true, Debug := false, Padding := p }))) + 3)] := rfl
  have hwidth : canvasWidth n { Border := true, Debug := false, Padding := p } =
      descMaxWidth (relateAsRoot (relateAsRoot (padStep n
        { Border := true, Debug := false, Padding := p }))) + 3 := rfl
  set W := descMaxWidth (relateAsRoot (relateAsRoot (padStep n
    { Border := true, Debug := false, Padding := p }))) + 3 with hW
  set n4 := (relateAsRoot (relateAsRoot (padStep n
    { Border := true, Debug := false, Padding := p }))).shiftAllRight 2 with hn4
  have hWge : 1 ≤ W := by omega
  constructor
  · intro l hl
    rw [hlines] at hl
    rw [hwidth]
    simp only [List.mem_append, List.mem_cons, List.mem_map, List.not_mem_nil, or_false,
      false_or] at hl
    rcases hl with (he | he | ⟨c, hc, he⟩) | he
    · rw [he]
      exact genTopBorder_length W hWge
    · rw [he, renderNode_str_length,
        effWidth_uncolored _ _ (allUncolored_colored_false n4 h4)]
    · rw [← he, renderNode_str_length,
        effWidth_uncolored _ _ (allUncolored_colored_false c
          (allData_mem_desc (fun d => !d.colored) n4 h4 c hc))]
    · rw [he]
      exact genBottomBorder_length W hWge
  · rw [hlines, hwidth]
    simp only [List.singleton_append, List.head?_cons, Option.some.injEq]
    rfl

/-- C4 witness. -/
theorem c4_border_uniform_witness :
    pairTree.allUncolored = true ∧
    (∀ l ∈ drawLines pairTree { Border := true, Debug := false, Padding := "" },
      l.length = canvasWidth pairTree { Border := true, Debug := false, Padding := "" } + 1) ∧
    (drawLines pairTree { Border := true, Debug := false, Padding := "" }).head? =
      some ("┌" ++ String.mk (List.replicate
        (canvasWidth pairTree { Border := true, Debug := false, Padding := "" } - 1) '─') ++ "┐") :=
  ⟨by decide, (c4_border_uniform pairTree "" (by decide)).1,
    (c4_border_uniform pairTree "" (by decide)).2⟩

/-- C7 counterexample: on a root with one child, GetGeneration(-1)
returns two nodes, not the single clone of the queried node the claim
describes. -/
theorem c7_counterexample :
    (pairTree.GetGeneration (-1)).length = 2 ∧ (2 : Nat) ≠ 1 := by
  decide

/-- C7 (amended): GetGeneration(-1) returns shallow structural clones of
the queried node and of every descendant, in preorder, each clone's
depth rewritten to its distance from the queried node; only on a leaf is
this the singleton clone of self. -/
theorem c7_generation_neg1 (n : GNode) : n.GetGeneration (-1) = cloneList n 0 :=
  getGeneration_neg1 n

/-- C8: GetGeneration 1 returns exactly the direct children (hence 3
nodes for a root with 3 children), and any generation index strictly
greater than MaxDepth+1 yields the empty sequence. -/
theorem c8_generation_counts (n : GNode) (y : Int) :
    (n.children.length = 3 → (n.GetGeneration 1).length = 3) ∧
    ((n.MaxDepth : Int) + 1 < y → n.GetGeneration y = []) := by
  constructor
  · intro h
    rw [getGeneration_one]
    exact h
  · intro h
    rw [GNode.GetGeneration]
    refine diveRetrieve_nil n 0 y ?_
    have hh := heightH_le_maxDepth n
    have hh2 : (n.heightH : Int) ≤ (n.MaxDepth : Int) := by exact_mod_cast hh
    push_cast
    omega

/-- C8 witness on the round-trip tree with y = 4. -/
theorem c8_generation_counts_witness :
    exTree.children.length = 3 ∧ (exTree.MaxDepth : Int) + 1 < 4 ∧
    (exTree.GetGeneration 1).length = 3 ∧ exTree.GetGeneration 4 = [] :=
  ⟨by decide, by decide,
    (c8_generation_counts exTree 4).1 (by decide),
    (c8_generation_counts exTree 4).2 (by decide)⟩

/-- C9 counterexample: with no render pass anywhere, GetDepth on the
grandchild of the TestDepthSimple tree already returns the valid depth
2, not a stale or zero value: depths are rewritten by AddChild itself. -/
theorem c9_counterexample :
    ((depthTree "root" "child1" "grandchild1").getAt [0, 0]).map GNode.GetDepth = some 2 ∧
    (2 : Nat) ≠ 0 := by
  decide

/-- C9 (amended): GetDepth is valid as soon as nodes are attached, with
no render needed: for any labels, the grandchild of the
attach-only TestDepthSimple tree reports depth 2. -/
theorem c9_depth_no_render (s1 s2 s3 : String) :
    ((depthTree s1 s2 s3).getAt [0, 0]).map GNode.GetDepth = some 2 := rfl

/-- C10 counterexample: after the failing SetPaddingAll("") empties only
the root's padding, Draw() no longer overwrites the descendants: the
child keeps its three-space padding while the root's stays empty, so not
every call to Draw() propagates the root's padding. -/
theorem c10_counterexample :
    ((emptyPadTree.Draw).2.getAt [0]).map (fun c => c.data.padding) = some "   " ∧
    (emptyPadTree.Draw).2.data.padding = "" ∧ ("   " : String) ≠ "" := by
  decide

/-- C10 (amended): DrawOptions with a nonempty Padding override
permanently rewrites every node's padding to the override, and Draw()
does the same with the root's padding whenever that padding is nonempty
(the only exception being the empty-root-padding state of the
counterexample). -/
theorem c10_draw_overwrites_padding (n : GNode) (di : DrawInput) :
    (di.Padding ≠ "" → (n.DrawOptions di).2.allPadding di.Padding = true) ∧
    (n.data.padding ≠ "" → (n.Draw).2.allPadding n.data.padding = true) := by
  constructor
  · intro h
    exact drawState_allPadding n di h
  · intro h
    exact drawState_allPadding n
      { Border := false, Debug := false, Padding := n.data.padding } h

/-- C10 witness. -/
theorem c10_draw_overwrites_padding_witness :
    (("  " : String) ≠ "") ∧ pairTree.data.padding ≠ "" ∧
    ((pairTree.DrawOptions { Border := false, Debug := false, Padding := "  " }).2.allPadding "  "
      = true) ∧
    (pairTree.Draw).2.allPadding pairTree.data.padding = true := by
  refine ⟨by decide, by decide, ?_, ?_⟩
  · exact (c10_draw_overwrites_padding pairTree
      { Border := false, Debug := false, Padding := "  " }).1 (by decide)
  · exact (c10_draw_overwrites_padding pairTree
      { Border := false, Debug := false, Padding := "" }).2 (by decide)

end Gree
